import Mathlib

/-!
# Verification of the brazuca-rd stream pipeline

Shallow embedding of the core of the `brazuca-rd` addon:

* `src/services/realdebrid-service.ts` — contextual best-file selection,
  the instant-availability cache with its chunked multi-strategy fetch,
  and the magnet-to-direct-URL resolution workflow;
* `src/services/stream-service.ts` — stream metadata construction and the
  URL-safe base64/JSON context codec;
* `src/controllers/stream-controller.ts` — the stream-listing pipeline;
* `src/services/torrent-indexer-provider.ts` — deduplication and size
  formatting.

JavaScript strings are modelled as Lean `String`, JS numbers appearing as
byte counts / ids / season-episode numbers as `Nat` (they are integral in
every reachable call), and the one genuinely real-valued quantity
(`Math.log10(bytes + 1)` inside file scoring) as an abstract function
`lg : Nat → ℚ` about which theorems assume only what the real `log10`
satisfies (monotonicity, non-negativity).  Fallible external calls are
oracles returning `Option`/`Bool`; thrown exceptions become `Except`.
-/

set_option maxHeartbeats 1000000

namespace Brazuca

/-! ## JavaScript string and truthiness helpers -/

/-- JS truthiness of an optional string: `undefined` and `""` are falsy. -/
def truthy : Option String → Bool
  | none => false
  | some s => !s.isEmpty

/-- JS `a || b` on optional strings: keeps the first truthy operand. -/
def jsOr (a b : Option String) : Option String :=
  if truthy a then a else b

/-- JS `String.prototype.includes`: substring containment (empty needle ⇒ true). -/
def strIncludes (s pat : String) : Bool :=
  decide (pat.data <:+: s.data)

/-- ASCII letters and digits, the characters kept by the `[^a-z0-9]/gi` strip. -/
def isAsciiAlnum (c : Char) : Bool :=
  (('a' ≤ c && c ≤ 'z') || ('A' ≤ c && c ≤ 'Z') || ('0' ≤ c && c ≤ '9'))

/-- Unicode NFD decomposition restricted to the Latin letters the sources can
meet (identity on ASCII, base letter + combining mark for the common accented
Latin-1 letters; other characters are left alone — they are deleted by the
alphanumeric strip in `normalize` just as their decompositions would be). -/
def nfdChar (c : Char) : List Char :=
  let mk (base : Char) (mark : Nat) : List Char := [base, Char.ofNat mark]
  match c with
  | 'á' => mk 'a' 0x301 | 'à' => mk 'a' 0x300 | 'â' => mk 'a' 0x302
  | 'ã' => mk 'a' 0x303 | 'ä' => mk 'a' 0x308
  | 'é' => mk 'e' 0x301 | 'è' => mk 'e' 0x300 | 'ê' => mk 'e' 0x302
  | 'ë' => mk 'e' 0x308
  | 'í' => mk 'i' 0x301 | 'ì' => mk 'i' 0x300 | 'î' => mk 'i' 0x302
  | 'ï' => mk 'i' 0x308
  | 'ó' => mk 'o' 0x301 | 'ò' => mk 'o' 0x300 | 'ô' => mk 'o' 0x302
  | 'õ' => mk 'o' 0x303 | 'ö' => mk 'o' 0x308
  | 'ú' => mk 'u' 0x301 | 'ù' => mk 'u' 0x300 | 'û' => mk 'u' 0x302
  | 'ü' => mk 'u' 0x308
  | 'ç' => mk 'c' 0x327 | 'ñ' => mk 'n' 0x303 | 'ý' => mk 'y' 0x301
  | 'Á' => mk 'A' 0x301 | 'À' => mk 'A' 0x300 | 'Â' => mk 'A' 0x302
  | 'Ã' => mk 'A' 0x303 | 'Ä' => mk 'A' 0x308
  | 'É' => mk 'E' 0x301 | 'È' => mk 'E' 0x300 | 'Ê' => mk 'E' 0x302
  | 'Ë' => mk 'E' 0x308
  | 'Í' => mk 'I' 0x301 | 'Ì' => mk 'I' 0x300 | 'Î' => mk 'I' 0x302
  | 'Ï' => mk 'I' 0x308
  | 'Ó' => mk 'O' 0x301 | 'Ò' => mk 'O' 0x300 | 'Ô' => mk 'O' 0x302
  | 'Õ' => mk 'O' 0x303 | 'Ö' => mk 'O' 0x308
  | 'Ú' => mk 'U' 0x301 | 'Ù' => mk 'U' 0x300 | 'Û' => mk 'U' 0x302
  | 'Ü' => mk 'U' 0x308
  | 'Ç' => mk 'C' 0x327 | 'Ñ' => mk 'N' 0x303 | 'Ý' => mk 'Y' 0x301
  | c => [c]

/-- `RealDebridService.normalize`: NFD-decompose, drop the combining marks
(`̀`–`ͯ`), strip everything outside `[a-zA-Z0-9]`, lower-case. -/
def normalize (value : Option String) : String :=
  match value with
  | none => ""
  | some s =>
    let decomposed := (s.data.map nfdChar).flatten
    let stripped := decomposed.filter (fun c => !(0x300 ≤ c.toNat && c.toNat ≤ 0x36F))
    let alnum := stripped.filter isAsciiAlnum
    ⟨alnum.map Char.toLower⟩

/-- Decimal digit character. -/
def digitChar (n : Nat) : Char := Char.ofNat (48 + n)

/-- Fuel-driven decimal digit expansion (`fuel` bounds the recursion depth so
that the definition reduces in the kernel; any `fuel > n` yields the digits). -/
def natDigits (fuel n : Nat) : List Char :=
  match fuel with
  | 0 => []
  | f + 1 => if n < 10 then [digitChar n] else natDigits f (n / 10) ++ [digitChar (n % 10)]

/-- JS `String(n)` for a non-negative integral number. -/
def natToString (n : Nat) : String := ⟨natDigits (n + 1) n⟩

/-- JS `String(e).padStart(2, '0')`. -/
def padStart2 (n : Nat) : String :=
  if n < 10 then ⟨'0' :: natDigits (n + 1) n⟩ else natToString n

/-! ## Data model: `StreamContext` and torrent files -/

/-- `StreamContext` (`src/models/source-model.ts`): every field optional.
Numeric fields carry the non-negative integers the pipeline produces. -/
structure StreamContext where
  type : Option String := none
  season : Option Nat := none
  episode : Option Nat := none
  episodeTitle : Option String := none
  title : Option String := none
  year : Option Nat := none
  episodeList : Option (List Nat) := none
deriving Repr, DecidableEq

/-- One entry of `TorrentInfo['files']` as used by best-file selection. -/
structure TorrentFile where
  id : Nat
  path : String
  bytes : Nat
deriving Repr, DecidableEq

/-- `RealDebridService.isVideoFile`: `/\.(mp4|mkv|mov|avi|ts|m4v|wmv|flv|webm)$/i`. -/
def isVideoFile (path : String) : Bool :=
  let lower := path.data.map Char.toLower
  ["mp4", "mkv", "mov", "avi", "ts", "m4v", "wmv", "flv", "webm"].any
    (fun ext => decide (('.' :: ext.data) <:+ lower))

/-- JS truthiness of an optional number (`undefined` and `0` are falsy). -/
def truthyNum : Option Nat → Bool
  | none => false
  | some n => n != 0

/-- `RealDebridService.scoreEpisodeMatch` run against an already-normalized
path: the fixed set of episode/season token variants, 10 points per matching
token of (normalized) length ≥ 4 and 6 otherwise, plus 2 if the declared
bundled-episode list contains the requested episode. -/
def scoreEpisodeMatch (path : String) (context : StreamContext) : Nat :=
  match context.episode with
  | none => 0
  | some episode =>
    let ep := natToString episode
    let epPad := padStart2 episode
    let baseTokens : List String :=
      ["e" ++ ep, "ep" ++ ep, "episode" ++ ep, "episodio" ++ ep,
       "capitulo" ++ ep, "part" ++ ep,
       "e" ++ epPad, "ep" ++ epPad, "episode" ++ epPad, "episodio" ++ epPad]
    let seasonTokens : List String :=
      match context.season with
      | none => []
      | some season =>
        let se := natToString season
        let sePad := padStart2 season
        ["s" ++ se ++ "e" ++ ep, "s" ++ se ++ "e" ++ epPad,
         "s" ++ sePad ++ "e" ++ epPad, "s" ++ sePad ++ "e" ++ ep,
         "season" ++ se ++ "episode" ++ ep,
         "season" ++ sePad ++ "episode" ++ epPad,
         se ++ "x" ++ ep, se ++ "x" ++ epPad, sePad ++ "x" ++ epPad]
    let tokens := baseTokens ++ seasonTokens
    let normalizedTokens := (tokens.map (fun t => normalize (some t))).filter (fun t => !t.isEmpty)
    let matchScore := normalizedTokens.foldl
      (fun acc token =>
        if strIncludes path token then acc + (if 4 ≤ token.length then 10 else 6) else acc) 0
    let listBonus :=
      match context.episodeList with
      | some l => if episode ∈ l then 2 else 0
      | none => 0
    matchScore + listBonus

/-- `RealDebridService.scoreFileAgainstContext`.  `lg bytes` stands for the
JS `Math.log10(file.bytes + 1)` size tie-breaker (only its monotonicity and
non-negativity are ever assumed). -/
def scoreFileAgainstContext (lg : Nat → ℚ) (context : StreamContext) (file : TorrentFile) : ℚ :=
  let normalizedPath := normalize (some file.path)
  if normalizedPath.isEmpty then 0
  else
    let base : Nat :=
      (if truthyNum context.year &&
          strIncludes normalizedPath (natToString (context.year.getD 0)) then 4 else 0)
      + (if truthy context.title &&
            (!(normalize context.title).isEmpty &&
              strIncludes normalizedPath (normalize context.title)) then 6 else 0)
      + (if truthy context.episodeTitle &&
            (!(normalize context.episodeTitle).isEmpty &&
              strIncludes normalizedPath (normalize context.episodeTitle)) then 8 else 0)
      + (if context.episode.isSome then scoreEpisodeMatch normalizedPath context else 0)
    if 0 < base then (base : ℚ) + lg file.bytes else 0

/-- One comparison step of the contextual sort
(`b.score - a.score`, then `b.file.bytes - a.file.bytes`): the accumulator is
replaced exactly when the new entry is strictly better in the
(score, bytes) lexicographic order. -/
def scoredStep (acc x : TorrentFile × ℚ) : TorrentFile × ℚ :=
  if acc.2 < x.2 ∨ (acc.2 = x.2 ∧ acc.1.bytes < x.1.bytes) then x else acc

/-- One step of the `reduce((max, file) => file.bytes > max.bytes ? file : max)`
picking the largest file by bytes (the first maximum wins). -/
def bytesStep (mx f : TorrentFile) : TorrentFile :=
  if mx.bytes < f.bytes then f else mx

/-- `RealDebridService.findContextualMatch`: score the files, keep the
strictly positive ones, stable-sort by score (descending) then bytes
(descending) and take the head.  A stable sort's head is the first element
that no later element strictly beats in the `(score, bytes)` order, which is
what folding `scoredStep` computes. -/
def findContextualMatch (lg : Nat → ℚ) (files : List TorrentFile)
    (context : Option StreamContext) : Option TorrentFile :=
  match context with
  | none => none
  | some ctx =>
    let scored := (files.map (fun f => (f, scoreFileAgainstContext lg ctx f))).filter
      (fun e => decide (0 < e.2))
    match scored with
    | [] => none
    | e :: rest => some (rest.foldl scoredStep e).1

/-- `RealDebridService.selectBestFile`: restrict to video-extension files
(falling back to `files[0]` when none qualifies), prefer a positive
contextual match, otherwise take the largest qualifying file
(`reduce((max, f) => f.bytes > max.bytes ? f : max)` — first maximum wins). -/
def selectBestFile (lg : Nat → ℚ) (files : List TorrentFile)
    (context : Option StreamContext) : Option TorrentFile :=
  let videoFiles := files.filter (fun f => isVideoFile f.path)
  match videoFiles with
  | [] => files.head?
  | v :: vs =>
    match findContextualMatch lg (v :: vs) context with
    | some f => some f
    | none => some (vs.foldl bytesStep v)

/-! ## Facts about the two selection folds -/

/-- The comparison the contextual sort's head realizes: `x` does not beat `r`
in the (score descending, bytes descending) order. -/
def leLex (x r : TorrentFile × ℚ) : Prop :=
  x.2 < r.2 ∨ (x.2 = r.2 ∧ x.1.bytes ≤ r.1.bytes)

/-! ## The concrete best-file scenario (`tt1234567:2:5`) -/

/-- `Show.S02E05.mkv`, 2 GB. -/
def showFile : TorrentFile := ⟨1, "Show.S02E05.mkv", 2000000000⟩

/-- `Show.S02E05.Extras.mkv`, 200 MB. -/
def extrasFile : TorrentFile := ⟨2, "Show.S02E05.Extras.mkv", 200000000⟩

/-- The match context `{season: 2, episode: 5}`. -/
def episodeCtx : StreamContext := { season := some 2, episode := some 5 }

/-! ## Size formatting (`TorrentIndexerProvider.formatSize`) -/

/-- JS `Math.round` / `toFixed(0)` for non-negative values: round half up. -/
def roundHalfUp (q : ℚ) : Nat := (⌊q + 1/2⌋).toNat

/-- JS `value.toFixed(1)` for non-negative values: one decimal digit,
rounding half up at the second decimal. -/
def toFixed1 (q : ℚ) : String :=
  let n := roundHalfUp (q * 10)
  natToString (n / 10) ++ "." ++ natToString (n % 10)

/-- The binary unit suffixes. -/
def unitsList : List String := ["B", "KB", "MB", "GB", "TB"]

/-- The `while (value >= 1024 && unitIndex < units.length - 1)` loop;
`fuel = 5` strictly dominates the at most four possible iterations. -/
def formatSizeLoop (value : ℚ) (unitIndex : Nat) : Nat → ℚ × Nat
  | 0 => (value, unitIndex)
  | fuel + 1 =>
    if 1024 ≤ value ∧ unitIndex < 4 then formatSizeLoop (value / 1024) (unitIndex + 1) fuel
    else (value, unitIndex)

/-- `TorrentIndexerProvider.formatSize`: binary scaling, `Math.round` for the
byte unit, and `toFixed(value >= 10 ? 0 : 1)` for the larger units. -/
def formatSize (size : ℚ) : String :=
  if size ≤ 0 then "Unknown size"
  else
    let p := formatSizeLoop size 0 5
    if p.2 = 0 then natToString (roundHalfUp p.1) ++ " B"
    else
      (if 10 ≤ p.1 then natToString (roundHalfUp p.1) else toFixed1 p.1)
        ++ " " ++ unitsList.getD p.2 ""

/-- The behavior the claim asserts, word for word: one decimal place once the
value is at least 10 of a unit, an integer otherwise. -/
def formatSizeClaimed (size : ℚ) : String :=
  if size ≤ 0 then "Unknown size"
  else
    let p := formatSizeLoop size 0 5
    if p.2 = 0 then natToString (roundHalfUp p.1) ++ " B"
    else
      (if 10 ≤ p.1 then toFixed1 p.1 else natToString (roundHalfUp p.1))
        ++ " " ++ unitsList.getD p.2 ""

/-- The amended claim, written independently of the loop: pick the largest
binary unit whose value is at least one (capped at TB), show one decimal
place while the value is below 10 of the unit, an integer once it reaches 10,
and a rounded integer for plain bytes. -/
def formatSizeAmended (size : ℚ) : String :=
  if size ≤ 0 then "Unknown size"
  else if size < 1024 then natToString (roundHalfUp size) ++ " B"
  else
    let k : Nat :=
      if size < 1024 ^ 2 then 1 else if size < 1024 ^ 3 then 2
      else if size < 1024 ^ 4 then 3 else 4
    let v := size / 1024 ^ k
    (if 10 ≤ v then natToString (roundHalfUp v) else toFixed1 v)
      ++ " " ++ unitsList.getD k ""

/-! ## UTF-8 (`Buffer.from(json, 'utf-8')` / `buffer.toString('utf-8')`)

Modelled from the spec: the Node `Buffer` text codec is not part of the
repository, so the standard UTF-8 byte encoding is defined here and its
decoder is the usual leading-byte dispatch. -/

/-- UTF-8 encoding of one Unicode scalar value (1–4 bytes). -/
def utf8EncodeChar (c : Char) : List Nat :=
  let n := c.toNat
  if n < 0x80 then [n]
  else if n < 0x800 then [0xC0 + n / 0x40, 0x80 + n % 0x40]
  else if n < 0x10000 then
    [0xE0 + n / 0x1000, 0x80 + (n / 0x40) % 0x40, 0x80 + n % 0x40]
  else
    [0xF0 + n / 0x40000, 0x80 + (n / 0x1000) % 0x40, 0x80 + (n / 0x40) % 0x40,
      0x80 + n % 0x40]

/-- UTF-8 encoding of a string. -/
def utf8Encode (s : String) : List Nat := (s.data.map utf8EncodeChar).flatten

/-- Decode one UTF-8 sequence from the front of a byte list. -/
def utf8DecodeChar : List Nat → Option (Char × List Nat)
  | [] => none
  | b :: rest =>
    if b < 0x80 then some (Char.ofNat b, rest)
    else if b < 0xC0 then none
    else if b < 0xE0 then
      match rest with
      | b1 :: r =>
        if 0x80 ≤ b1 ∧ b1 < 0xC0 then
          some (Char.ofNat ((b - 0xC0) * 0x40 + (b1 - 0x80)), r)
        else none
      | _ => none
    else if b < 0xF0 then
      match rest with
      | b1 :: b2 :: r =>
        if (0x80 ≤ b1 ∧ b1 < 0xC0) ∧ (0x80 ≤ b2 ∧ b2 < 0xC0) then
          some (Char.ofNat ((b - 0xE0) * 0x1000 + (b1 - 0x80) * 0x40 + (b2 - 0x80)), r)
        else none
      | _ => none
    else if b < 0xF8 then
      match rest with
      | b1 :: b2 :: b3 :: r =>
        if (0x80 ≤ b1 ∧ b1 < 0xC0) ∧ (0x80 ≤ b2 ∧ b2 < 0xC0) ∧ (0x80 ≤ b3 ∧ b3 < 0xC0) then
          some (Char.ofNat ((b - 0xF0) * 0x40000 + (b1 - 0x80) * 0x1000 +
            (b2 - 0x80) * 0x40 + (b3 - 0x80)), r)
        else none
      | _ => none
    else none

/-- Fuel-driven UTF-8 decoding loop (each step consumes at least one byte,
so `fuel = length` always suffices). -/
def utf8DecodeLoop : Nat → List Nat → Option (List Char)
  | _, [] => some []
  | 0, _ :: _ => none
  | fuel + 1, b :: bs => do
    let (c, rest) ← utf8DecodeChar (b :: bs)
    let cs ← utf8DecodeLoop fuel rest
    some (c :: cs)

/-- Decode a byte list as UTF-8 text. -/
def utf8Decode (bs : List Nat) : Option String :=
  (utf8DecodeLoop bs.length bs).map List.asString

/-! ## Base64 (`buffer.toString('base64')` / `Buffer.from(s, 'base64')`)

Modelled from the spec: the Node base64 codec is external, so the standard
RFC 4648 alphabet and 3-byte/4-char grouping with `=` padding are
defined here. -/

/-- The base64 alphabet. -/
def base64Chars : List Char :=
  "ABCDEFGHIJKLMNOPQRSTUVWXYZabcdefghijklmnopqrstuvwxyz0123456789+/".data

/-- The `n`-th base64 alphabet character. -/
def b64c (n : Nat) : Char := base64Chars.getD n '?'

/-- Encode bytes into base64 characters, three bytes per four characters,
padding the final partial group with `=`. -/
def base64EncodeGroups : List Nat → List Char
  | [] => []
  | [a] => [b64c (a / 4), b64c (a % 4 * 16), '=', '=']
  | [a, b] => [b64c (a / 4), b64c (a % 4 * 16 + b / 16), b64c (b % 16 * 4), '=']
  | a :: b :: c :: rest =>
    b64c (a / 4) :: b64c (a % 4 * 16 + b / 16) :: b64c (b % 16 * 4 + c / 64) ::
      b64c (c % 64) :: base64EncodeGroups rest

/-- Base64 rendering of a byte list. -/
def base64Encode (bs : List Nat) : String := ⟨base64EncodeGroups bs⟩

/-- Index of a character in the base64 alphabet. -/
def b64IndexAux : List Char → Char → Nat → Option Nat
  | [], _, _ => none
  | x :: xs, c, i => if x = c then some i else b64IndexAux xs c (i + 1)

/-- Index of a character in the base64 alphabet (`none` if absent). -/
def b64Index (c : Char) : Option Nat := b64IndexAux base64Chars c 0

/-- Decode a base64 character sequence (strict: length must be a multiple of
four, `=` only as final-group padding). -/
def base64DecodeGroups : List Char → Option (List Nat)
  | [] => some []
  | c1 :: c2 :: c3 :: c4 :: rest =>
    match b64Index c1, b64Index c2 with
    | some i1, some i2 =>
      if c3 = '=' then
        if c4 = '=' ∧ rest = [] then some [i1 * 4 + i2 / 16] else none
      else
        match b64Index c3 with
        | some i3 =>
          if c4 = '=' then
            if rest = [] then some [i1 * 4 + i2 / 16, i2 % 16 * 16 + i3 / 4] else none
          else
            match b64Index c4, base64DecodeGroups rest with
            | some i4, some tail =>
              some ((i1 * 4 + i2 / 16) :: (i2 % 16 * 16 + i3 / 4) ::
                (i3 % 4 * 64 + i4) :: tail)
            | _, _ => none
        | none => none
    | _, _ => none
  | _ => none

/-- Base64 decoding of a string. -/
def base64Decode (s : String) : Option (List Nat) := base64DecodeGroups s.data

/-! ## URL-safe wrapping (`replace`, `=`-stripping, `=`-padding) -/

/-- `s.replace(/a/g, b)` for single characters. -/
def replaceChar (a b : Char) (l : List Char) : List Char :=
  l.map (fun c => if c = a then b else c)

/-- `s.replace(/=+$/g, '')`: drop every trailing `=`. -/
def stripTrailingEq (l : List Char) : List Char :=
  (l.reverse.dropWhile (fun c => c = '=')).reverse

/-- The `while (normalized.length % 4 !== 0) normalized += '='` loop
(at most three iterations are ever needed; fuel 4 dominates them). -/
def padEqLoop : Nat → List Char → List Char
  | 0, l => l
  | fuel + 1, l => if l.length % 4 = 0 then l else padEqLoop fuel (l ++ ['='])

/-! ## Compact JSON for `StreamContext`

Modelled from the spec: `JSON.stringify` and `JSON.parse` are JS builtins.
The printer below emits exactly the compact JSON `JSON.stringify` produces
for a `StreamContext` (present fields in declaration order, `undefined`
fields omitted, `"`/`\`/control characters escaped); the parser accepts the
grammar the printer emits (string/number/number-array fields keyed by the
seven context keys, in any order) and yields `none` on anything else — the
"no context" decode result. -/

/-- Lower-case hexadecimal digit. -/
def hexDigitChar (n : Nat) : Char :=
  if n < 10 then digitChar n else Char.ofNat (87 + n)

/-- JSON string escaping as `JSON.stringify` performs it. -/
def escapeChar (c : Char) : List Char :=
  if c = '"' then ['\\', '"']
  else if c = '\\' then ['\\', '\\']
  else if c.toNat < 0x20 then
    ['\\', 'u', '0', '0', hexDigitChar (c.toNat / 16), hexDigitChar (c.toNat % 16)]
  else [c]

/-- A JSON string literal. -/
def jsonQuote (s : String) : List Char :=
  '"' :: (s.data.map escapeChar).flatten ++ ['"']

/-- Comma-join rendered pieces. -/
def joinComma : List (List Char) → List Char
  | [] => []
  | [p] => p
  | p :: ps => p ++ ',' :: joinComma ps

/-- A JSON array of natural numbers, e.g. `[1,12,3]`. -/
def jsonNatList (l : List Nat) : List Char :=
  '[' :: joinComma (l.map (fun n => natDigits (n + 1) n)) ++ [']']

/-- One present field of a serialized `StreamContext`. -/
inductive CtxField where
  | typ (s : String)
  | season (n : Nat)
  | episode (n : Nat)
  | episodeTitle (s : String)
  | title (s : String)
  | year (n : Nat)
  | episodeList (l : List Nat)
deriving Repr, DecidableEq

/-- Rendered `"key":value` text of one field. -/
def printCtxField : CtxField → List Char
  | .typ s => jsonQuote "type" ++ ':' :: jsonQuote s
  | .season n => jsonQuote "season" ++ ':' :: natDigits (n + 1) n
  | .episode n => jsonQuote "episode" ++ ':' :: natDigits (n + 1) n
  | .episodeTitle s => jsonQuote "episodeTitle" ++ ':' :: jsonQuote s
  | .title s => jsonQuote "title" ++ ':' :: jsonQuote s
  | .year n => jsonQuote "year" ++ ':' :: natDigits (n + 1) n
  | .episodeList l => jsonQuote "episodeList" ++ ':' :: jsonNatList l

/-- Set the field a parsed pair denotes. -/
def applyCtxField (c : StreamContext) : CtxField → StreamContext
  | .typ s => { c with type := some s }
  | .season n => { c with season := some n }
  | .episode n => { c with episode := some n }
  | .episodeTitle s => { c with episodeTitle := some s }
  | .title s => { c with title := some s }
  | .year n => { c with year := some n }
  | .episodeList l => { c with episodeList := some l }

/-- The present fields of a context, in declaration order. -/
def contextFieldList (c : StreamContext) : List CtxField :=
  (match c.type with | some s => [CtxField.typ s] | none => [])
    ++ (match c.season with | some n => [CtxField.season n] | none => [])
    ++ (match c.episode with | some n => [CtxField.episode n] | none => [])
    ++ (match c.episodeTitle with | some s => [CtxField.episodeTitle s] | none => [])
    ++ (match c.title with | some s => [CtxField.title s] | none => [])
    ++ (match c.year with | some n => [CtxField.year n] | none => [])
    ++ (match c.episodeList with | some l => [CtxField.episodeList l] | none => [])

/-- `JSON.stringify(context)`. -/
def jsonStringifyContext (c : StreamContext) : String :=
  ⟨'{' :: joinComma ((contextFieldList c).map printCtxField) ++ ['}']⟩

/-- Hexadecimal digit value. -/
def hexVal (c : Char) : Option Nat :=
  if '0' ≤ c ∧ c ≤ '9' then some (c.toNat - 48)
  else if 'a' ≤ c ∧ c ≤ 'f' then some (c.toNat - 87)
  else if 'A' ≤ c ∧ c ≤ 'F' then some (c.toNat - 55)
  else none

/-- JSON single-character escapes. -/
def unescapeChar (c : Char) : Option Char :=
  if c = '"' then some '"'
  else if c = '\\' then some '\\'
  else if c = '/' then some '/'
  else if c = 'b' then some (Char.ofNat 8)
  else if c = 'f' then some (Char.ofNat 12)
  else if c = 'n' then some (Char.ofNat 10)
  else if c = 'r' then some (Char.ofNat 13)
  else if c = 't' then some (Char.ofNat 9)
  else none

/-- Parse a JSON string body up to the closing quote. -/
def parseStringBody : List Char → Option (List Char × List Char)
  | [] => none
  | c :: rest =>
    if c = '"' then some ([], rest)
    else if c = '\\' then
      match rest with
      | [] => none
      | e :: r =>
        if e = 'u' then
          match r with
          | h1 :: h2 :: h3 :: h4 :: r2 =>
            match hexVal h1, hexVal h2, hexVal h3, hexVal h4 with
            | some v1, some v2, some v3, some v4 =>
              match parseStringBody r2 with
              | some (cs, r3) =>
                some (Char.ofNat (((v1 * 16 + v2) * 16 + v3) * 16 + v4) :: cs, r3)
              | none => none
            | _, _, _, _ => none
          | _ => none
        else
          match unescapeChar e, parseStringBody r with
          | some ec, some (cs, r2) => some (ec :: cs, r2)
          | _, _ => none
    else
      match parseStringBody rest with
      | some (cs, r2) => some (c :: cs, r2)
      | none => none

/-- Parse a JSON string literal. -/
def parseString : List Char → Option (List Char × List Char)
  | '"' :: rest => parseStringBody rest
  | _ => none

/-- Decimal digit test. -/
def isDigitChar (c : Char) : Bool := decide ('0' ≤ c ∧ c ≤ '9')

/-- Parse a natural number (a non-empty digit run). -/
def parseNat (l : List Char) : Option (Nat × List Char) :=
  let ds := l.takeWhile isDigitChar
  if ds.isEmpty then none
  else some (ds.foldl (fun a c => a * 10 + (c.toNat - 48)) 0, l.drop ds.length)

/-- Parse the comma-separated numbers of a non-empty array body. -/
def parseNatListBody : Nat → List Char → Option (List Nat × List Char)
  | 0, _ => none
  | fuel + 1, l =>
    match parseNat l with
    | some (n, rest) =>
      match rest with
      | c :: r =>
        if c = ']' then some ([n], r)
        else if c = ',' then
          match parseNatListBody fuel r with
          | some (ns, r2) => some (n :: ns, r2)
          | none => none
        else none
      | [] => none
    | none => none

/-- Parse a JSON array of natural numbers. -/
def parseNatList : List Char → Option (List Nat × List Char)
  | [] => none
  | c :: rest =>
    if c = '[' then
      match rest with
      | [] => none
      | c2 :: r2 =>
        if c2 = ']' then some ([], r2) else parseNatListBody rest.length rest
    else none

/-- Parse one `"key":value` pair and set the matching context field. -/
def parsePair (ctx : StreamContext) (l : List Char) : Option (StreamContext × List Char) :=
  match parseString l with
  | some (kcs, r1) =>
    match r1 with
    | [] => none
    | c1 :: r2 =>
      if c1 = ':' then
      let k : String := ⟨kcs⟩
      if k = "type" then
        match parseString r2 with
        | some (v, r3) => some ({ ctx with type := some ⟨v⟩ }, r3)
        | none => none
      else if k = "season" then
        match parseNat r2 with
        | some (n, r3) => some ({ ctx with season := some n }, r3)
        | none => none
      else if k = "episode" then
        match parseNat r2 with
        | some (n, r3) => some ({ ctx with episode := some n }, r3)
        | none => none
      else if k = "episodeTitle" then
        match parseString r2 with
        | some (v, r3) => some ({ ctx with episodeTitle := some ⟨v⟩ }, r3)
        | none => none
      else if k = "title" then
        match parseString r2 with
        | some (v, r3) => some ({ ctx with title := some ⟨v⟩ }, r3)
        | none => none
      else if k = "year" then
        match parseNat r2 with
        | some (n, r3) => some ({ ctx with year := some n }, r3)
        | none => none
      else if k = "episodeList" then
        match parseNatList r2 with
        | some (ns, r3) => some ({ ctx with episodeList := some ns }, r3)
        | none => none
      else none
      else none
  | none => none

/-- Parse the comma-separated pairs of a non-empty object body. -/
def parsePairs : Nat → StreamContext → List Char → Option (StreamContext × List Char)
  | 0, _, _ => none
  | fuel + 1, ctx, l =>
    match parsePair ctx l with
    | some (ctx2, r) =>
      match r with
      | c :: r2 => if c = ',' then parsePairs fuel ctx2 r2 else some (ctx2, c :: r2)
      | [] => some (ctx2, [])
    | none => none

/-- `JSON.parse(json) as StreamContext` for the grammar the printer emits. -/
def jsonParseContext (s : String) : Option StreamContext :=
  match s.data with
  | [] => none
  | c :: rest =>
    if c = '{' then
      if rest = ['}'] then some {}
      else
        match parsePairs rest.length {} rest with
        | some (ctx, r) => if r = ['}'] then some ctx else none
        | none => none
    else none

/-! ## The context codec (`encodeStreamContext` / `decodeStreamContext`) -/

/-- `StreamService.encodeStreamContext`: compact JSON, UTF-8, base64, then
URL-safe replacements `+`→`-`, `/`→`_` and stripping of trailing `=`. -/
def encodeStreamContext (context : Option StreamContext) : Option String :=
  match context with
  | none => none
  | some c =>
    let json := jsonStringifyContext c
    if json.isEmpty then none
    else
      let b64 := base64Encode (utf8Encode json)
      some ⟨stripTrailingEq (replaceChar '/' '_' (replaceChar '+' '-' b64.data))⟩

/-- `StreamService.decodeStreamContext`: reverse the replacements, re-pad
with `=` to a multiple of four, decode base64 and UTF-8, parse the JSON;
every failure (and a missing or empty input) yields `none`. -/
def decodeStreamContext (encoded : Option String) : Option StreamContext :=
  match encoded with
  | none => none
  | some s =>
    if s.isEmpty then none
    else
      let normalized := padEqLoop 4 (replaceChar '_' '/' (replaceChar '-' '+' s.data))
      match base64DecodeGroups normalized with
      | none => none
      | some bytes =>
        match utf8Decode bytes with
        | none => none
        | some json =>
          if json.isEmpty then none
          else jsonParseContext json

/-! ## Stream metadata (`stream-service.ts`) and the listing controller
(`stream-controller.ts`) -/

/-- `SourceStream` (`src/models/source-model.ts`), plus the `cached` flag the
availability stage writes and the controller reads. -/
structure SourceStream where
  name : Option String := none
  title : Option String := none
  url : Option String := none
  magnet : Option String := none
  infoHash : Option String := none
  size : Option Nat := none
  seeders : Option Nat := none
  quality : Option String := none
  releaseGroup : Option String := none
  context : Option StreamContext := none
  cached : Option Bool := none
deriving Repr, DecidableEq

/-- `StremioStreamBehaviorHints`. -/
structure BehaviorHints where
  notWebReady : Option Bool := none
  realDebridReady : Option Bool := none
  fallbackMagnet : Option String := none
deriving Repr, DecidableEq

/-- `StremioStream`. -/
structure StremioStream where
  name : String
  title : String
  url : String
  behaviorHints : BehaviorHints
  infoHash : Option String := none
  externalUrl : Option String := none
  size : Option Nat := none
  seeders : Option Nat := none
  quality : Option String := none
  releaseGroup : Option String := none
deriving Repr, DecidableEq

/-- `StreamResponse`. -/
structure StreamResponse where
  streams : List StremioStream
deriving Repr, DecidableEq

/-- `StreamMetadataOptions` of `stream-service.ts`; note it has no
`fallbackMagnet` member — the controller passes one, but the service never
reads it. -/
structure StreamMetadataOptions where
  fallbackUrl : Option String := none
  forceNotWebReady : Option Bool := none
  realDebridReady : Option Bool := none
deriving Repr, DecidableEq

/-- JS `String.prototype.startsWith`. -/
def strStartsWith (s pre : String) : Bool :=
  decide (pre.data <+: s.data)

/-- JS `String.prototype.toLowerCase` (ASCII range; every prefix the sources
test against is ASCII). -/
def lowerStr (s : String) : String := ⟨s.data.map Char.toLower⟩

/-- The JS `trim` whitespace set, restricted to its common members. -/
def isJsWhitespace (c : Char) : Bool :=
  c = ' ' || c = Char.ofNat 9 || c = Char.ofNat 10 || c = Char.ofNat 13 ||
    c = Char.ofNat 11 || c = Char.ofNat 12

/-- JS `String.prototype.trim`. -/
def strTrim (s : String) : String :=
  ⟨((s.data.dropWhile isJsWhitespace).reverse.dropWhile isJsWhitespace).reverse⟩

/-- JS `a || b` where the fallback is a plain string. -/
def jsOrS (a : Option String) (b : String) : String :=
  if truthy a then a.getD "" else b

/-- `StreamService.createStreamMetadata`.  The source populates the record
with a sequence of conditional assignments; since each statement sets a
distinct field (and `metadata.externalUrl` is still unset when the
`!metadata.externalUrl` guard runs), they are rendered as per-field
conditionals. -/
def createStreamMetadata (sourceStream : SourceStream) (url : Option String)
    (options : Option StreamMetadataOptions) : StremioStream :=
  let fallbackUrl :=
    jsOr (jsOr (options.bind (fun o => o.fallbackUrl)) sourceStream.magnet) sourceStream.url
  let resolvedUrl :=
    if truthy url && !(strTrim (url.getD "")).isEmpty then url.getD ""
    else (jsOr fallbackUrl (some "")).getD ""
  let notWebReady :=
    match options.bind (fun o => o.forceNotWebReady) with
    | some b => b
    | none => strStartsWith resolvedUrl "magnet:"
  { name := jsOrS sourceStream.name ("[Brazuca RD] " ++ jsOrS sourceStream.title "Unknown"),
    title := jsOrS sourceStream.title "Unknown file",
    url := resolvedUrl,
    behaviorHints :=
      { notWebReady := some notWebReady,
        realDebridReady := options.bind (fun o => o.realDebridReady),
        fallbackMagnet :=
          if truthy fallbackUrl && strStartsWith (fallbackUrl.getD "") "magnet:" then
            fallbackUrl
          else none },
    infoHash := if truthy sourceStream.infoHash then sourceStream.infoHash else none,
    externalUrl :=
      if truthy sourceStream.url then sourceStream.url
      else if truthy fallbackUrl && !(strStartsWith (fallbackUrl.getD "") "magnet:") then
        fallbackUrl
      else none,
    size := if sourceStream.size.isSome then sourceStream.size else none,
    seeders := if sourceStream.seeders.isSome then sourceStream.seeders else none,
    quality := if truthy sourceStream.quality then sourceStream.quality else none,
    releaseGroup :=
      if truthy sourceStream.releaseGroup then sourceStream.releaseGroup else none }

/-- The query object of `extractRealDebridToken` (empty at the controller's
call site). -/
structure TokenQuery where
  realdebridToken : Option String := none
  rdToken : Option String := none
  token : Option String := none
deriving Repr, DecidableEq

/-- The headers object (`x-rd-token`). -/
structure TokenHeaders where
  xRdToken : Option String := none
deriving Repr, DecidableEq

/-- The `extra` argument of a stream request. -/
structure TokenExtra where
  realdebridToken : Option String := none
  token : Option String := none
deriving Repr, DecidableEq

/-- The `params` argument. -/
structure TokenParams where
  token : Option String := none
deriving Repr, DecidableEq

/-- `StreamService.extractRealDebridToken`: first truthy candidate of the
`||` chain, accepted only when longer than 20 characters. -/
def extractRealDebridToken (query : TokenQuery) (headers : TokenHeaders)
    (extra : Option TokenExtra) (params : Option TokenParams) : Option String :=
  let token :=
    jsOr query.realdebridToken (jsOr query.rdToken (jsOr query.token
      (jsOr headers.xRdToken (jsOr (extra.bind (fun e => e.realdebridToken))
        (jsOr (extra.bind (fun e => e.token)) (params.bind (fun p => p.token)))))))
  if truthy token && decide (20 < (token.getD "").length) then token else none

/-- `StreamController.extractStreamMagnet`. -/
def extractStreamMagnet (stream : SourceStream) : Option String :=
  if truthy stream.magnet && strStartsWith (lowerStr (stream.magnet.getD "")) "magnet:" then
    stream.magnet
  else if truthy stream.url && strStartsWith (lowerStr (stream.url.getD "")) "magnet:" then
    stream.url
  else if truthy stream.infoHash then
    some ("magnet:?xt=urn:btih:" ++ stream.infoHash.getD "")
  else none

/-- `encodeURIComponent` (a JS builtin, modelled from its specification:
unreserved characters pass through, everything else is percent-encoded as
upper-case hex UTF-8 bytes). -/
def encodeURIComponent (s : String) : String :=
  let unreserved := fun (c : Char) =>
    (('a' ≤ c && c ≤ 'z') || ('A' ≤ c && c ≤ 'Z') || ('0' ≤ c && c ≤ '9') ||
      c = '-' || c = '_' || c = '.' || c = '!' || c = '~' || c = '*' ||
      c = Char.ofNat 39 || c = '(' || c = ')')
  let hexUp := fun (n : Nat) => if n < 10 then digitChar n else Char.ofNat (55 + n)
  ⟨(s.data.map (fun c =>
    if unreserved c then [c]
    else (utf8EncodeChar c).map (fun b => ['%', hexUp (b / 16), hexUp (b % 16)]) |>.flatten)).flatten⟩

/-- `StreamController.buildResolveUrl`. -/
def buildResolveUrl (resolveBaseUrl : String) (token magnet : String)
    (context : Option StreamContext) : String :=
  let contextValue := encodeStreamContext context
  let querySuffix := if truthy contextValue then "?ctx=" ++ contextValue.getD "" else ""
  resolveBaseUrl ++ "/resolve/" ++ encodeURIComponent token ++ "/" ++
    encodeURIComponent magnet ++ querySuffix

/-- The processability filter of `handleStreamRequest`:
`stream.magnet || stream.infoHash || (stream.url && stream.url.startsWith('magnet:'))`. -/
def processableStream (s : SourceStream) : Bool :=
  truthy s.magnet || truthy s.infoHash ||
    (truthy s.url && strStartsWith (s.url.getD "") "magnet:")

/-- `StreamController.handleStreamRequest`, given the already-fetched source
streams.  The final sort (`realDebridReady` first, otherwise stable) is the
stable partition.  The controller's `commonOptions` also carries a
`fallbackMagnet` member, but `StreamMetadataOptions` has no such field, so
`createStreamMetadata` never sees it (its `fallbackUrl` stays unset). -/
def handleStreamRequest (resolveBaseUrl : String) (sourceStreams : List SourceStream)
    (extra : Option TokenExtra) (envToken : Option String) : StreamResponse :=
  let processableStreams := sourceStreams.filter processableStream
  if processableStreams.isEmpty then { streams := [] }
  else
    let realDebridToken := extractRealDebridToken {} {} extra
      (if truthy envToken then some { token := envToken } else none)
    let streamMetadata := processableStreams.filterMap (fun s =>
      match extractStreamMagnet s with
      | none => none
      | some magnet =>
        let commonOptions : StreamMetadataOptions :=
          { forceNotWebReady := some true,
            realDebridReady := some (s.cached.getD false) }
        match realDebridToken with
        | none => some (createStreamMetadata s (some magnet) (some commonOptions))
        | some tok =>
          some (createStreamMetadata s
            (some (buildResolveUrl resolveBaseUrl tok magnet s.context))
            (some commonOptions)))
    let sorted :=
      streamMetadata.filter (fun m => m.behaviorHints.realDebridReady = some true) ++
        streamMetadata.filter (fun m => !(m.behaviorHints.realDebridReady = some true : Bool))
    { streams := sorted }

/-! ## The resolution workflow (`processMagnetToDirectUrl`) -/

/-- The part of `TorrentInfo` the resolution workflow reads; an absent
`files`/`links` member and an empty one are both checked by the same
`!x || x.length === 0` tests and are modelled as `[]`. -/
structure TorrentInfo where
  files : List TorrentFile := []
  status : String := ""
  links : List String := []
deriving Repr, DecidableEq

/-- The errors `realdebrid-service.ts` throws, one per `throw` site. -/
inductive PlaybackError where
  | addMagnetFailed
  | getInfoFailed
  | noFilesFound (torrentId : String)
  | noPlayableFiles
  | selectFilesFailed
  | noLinks (torrentId : String)
  | linkUndefined (torrentId : String)
  | unrestrictFailed
deriving Repr, DecidableEq

/-- The external Real-Debrid API as a deterministic oracle; `torrentInfo`
takes the index of the `getTorrentInfo` call so its answer may change as the
job progresses (`none` models an HTTP failure, which the service turns into
a thrown error). -/
structure RDEnv where
  addMagnet : String → Option String
  torrentInfo : Nat → String → Option TorrentInfo
  selectFiles : String → String → Bool
  unrestrictLink : String → Option String

/-- `RealDebridService.createPlaceholderUrl`. -/
def createPlaceholderUrl (baseUrl : String) : String :=
  baseUrl ++ "/placeholder/downloading.mp4"

/-- `RealDebridService.getDirectDownloadUrl` (`callIdx` numbers its inner
`getTorrentInfo` call). -/
def getDirectDownloadUrl (env : RDEnv) (callIdx : Nat) (torrentId : String) :
    Except PlaybackError String :=
  match env.torrentInfo callIdx torrentId with
  | none => .error .getInfoFailed
  | some finalInfo =>
    match finalInfo.links with
    | [] => .error (.noLinks torrentId)
    | downloadLink :: _ =>
      if downloadLink.isEmpty then .error (.linkUndefined torrentId)
      else
        match env.unrestrictLink downloadLink with
        | none => .error .unrestrictFailed
        | some download => .ok download

/-- `RealDebridService.processMagnetToDirectUrl`: submit, inspect, select the
best file, mark it, poll the status, wait once (the fixed 5 s delay is the
gap between `torrentInfo 1` and `torrentInfo 2`), and fall back to the
placeholder URL when the job still is not `downloaded`. -/
def processMagnetToDirectUrl (env : RDEnv) (lg : Nat → ℚ) (baseUrl : String)
    (magnet : String) (context : Option StreamContext) : Except PlaybackError String :=
  match env.addMagnet magnet with
  | none => .error .addMagnetFailed
  | some torrentId =>
    match env.torrentInfo 0 torrentId with
    | none => .error .getInfoFailed
    | some torrentInfo =>
      if torrentInfo.files.isEmpty then .error (.noFilesFound torrentId)
      else
        match selectBestFile lg torrentInfo.files context with
        | none => .error .noPlayableFiles
        | some selectedFile =>
          if env.selectFiles torrentId (natToString selectedFile.id) then
            match env.torrentInfo 1 torrentId with
            | none => .error .getInfoFailed
            | some currentInfo =>
              if currentInfo.status = "downloaded" then
                getDirectDownloadUrl env 2 torrentId
              else
                match env.torrentInfo 2 torrentId with
                | none => .error .getInfoFailed
                | some retryInfo =>
                  if retryInfo.status = "downloaded" then
                    getDirectDownloadUrl env 3 torrentId
                  else .ok (createPlaceholderUrl baseUrl)
          else .error .selectFilesFailed

/-- A concrete file for exercising the resolution workflow. -/
def c7File : TorrentFile := ⟨1, "a.mkv", 10⟩

/-- A concrete Real-Debrid oracle whose job never leaves the `queued` state. -/
def c7Env : RDEnv where
  addMagnet := fun _ => some "t1"
  torrentInfo := fun _ _ => some { files := [c7File], status := "queued", links := [] }
  selectFiles := fun _ _ => true
  unrestrictLink := fun _ => none

/-! ## Stream deduplication (`torrent-indexer-provider.ts`) -/

/-- `MAX_STREAMS` from `torrent-indexer-provider.ts`. -/
def MAX_STREAMS : Nat := 60

/-- The regex `/btih:([^&]+)/i` applied to a char list: at the first position
carrying a case-insensitive `btih:` followed by at least one non-`&` char, the
capture is the run of non-`&` chars after the colon. -/
def btihCapture : List Char → Option (List Char)
  | [] => none
  | c :: rest =>
    if ((c :: rest).take 5).map Char.toLower = "btih:".data then
      let cap := ((c :: rest).drop 5).takeWhile (fun x => x != '&')
      if cap.isEmpty then btihCapture rest else some cap
    else btihCapture rest

/-- `TorrentIndexerProvider.extractInfoHash`: `magnet.match(/btih:([^&]+)/i)`,
returning the first capture group. -/
def extractInfoHash (magnet : String) : Option String :=
  (btihCapture magnet.data).map fun cap => (⟨cap⟩ : String)

/-- `TorrentIndexerProvider.getDedupeKey`: lower-cased info hash when the
stream carries one (directly or inside its magnet), else the raw magnet,
else no key. -/
def getDedupeKey (stream : SourceStream) : Option String :=
  if truthy stream.infoHash then some (lowerStr (stream.infoHash.getD ""))
  else if truthy stream.magnet then
    match extractInfoHash (stream.magnet.getD "") with
    | some h => if h = "" then some (stream.magnet.getD "") else some (lowerStr h)
    | none => some (stream.magnet.getD "")
  else none

/-- The dedup loop of `TorrentIndexerProvider.getStreams` (lines 180-218):
skip a candidate whose key was already seen, otherwise retain it and record
its key, returning early once `MAX_STREAMS` candidates are retained. -/
def dedupLoop : List String → List SourceStream → List SourceStream → List SourceStream
  | _, acc, [] => acc
  | seen, acc, s :: rest =>
    let key := getDedupeKey s
    if (match key with | some k => seen.contains k | none => false) then
      dedupLoop seen acc rest
    else
      let acc2 := acc ++ [s]
      let seen2 := match key with | some k => k :: seen | none => seen
      if MAX_STREAMS ≤ acc2.length then acc2 else dedupLoop seen2 acc2 rest

/-- The deduplication/truncation stage of `getStreams`, applied to the list of
accepted (relevant, mappable) candidates in query order; the later
`decorateWithRealDebrid` pass only mutates flags on the retained
streams and changes neither membership nor order. -/
def getStreamsDedup (candidates : List SourceStream) : List SourceStream :=
  dedupLoop [] [] candidates

/-- A family of candidates with pairwise distinct dedup keys. -/
def c6Cand (i : Nat) : SourceStream := { infoHash := some ("h" ++ natToString i) }

/-- Sixty-one candidates with distinct keys. -/
def c6Input : List SourceStream := (List.range 61).map c6Cand

/-! ## Instant-availability cache (`part_000`) -/

/-- `RealDebridService.INSTANT_AVAILABILITY_TTL_MS = 5 * 60 * 1000`. -/
def INSTANT_AVAILABILITY_TTL_MS : Nat := 5 * 60 * 1000

/-- `InstantAvailabilityCacheEntry`. -/
structure InstantAvailabilityCacheEntry where
  cached : Bool
  expires : Nat
deriving Repr, DecidableEq

/-- The static `instantAvailabilityCache` map, as a shadowing association
list: `set` prepends and `get` takes the first match. -/
def AvailCache : Type := List (String × InstantAvailabilityCacheEntry)

/-- `Map.prototype.get`. -/
def cacheGet : AvailCache → String → Option InstantAvailabilityCacheEntry
  | [], _ => none
  | (k, e) :: rest, h => if k == h then some e else cacheGet rest h

/-- `Map.prototype.set` (overwriting: the new binding shadows old ones). -/
def cacheSet (c : AvailCache) (k : String) (e : InstantAvailabilityCacheEntry) :
    AvailCache :=
  (k, e) :: c

/-- A JSON-ish value as inspected by `hasCachedNested`: a falsy value, a
truthy non-object primitive, an array, or a plain object. -/
inductive AvailValue where
  | nullish : AvailValue
  | prim : AvailValue
  | arr : List AvailValue → AvailValue
  | obj : List (String × AvailValue) → AvailValue

/-- An `InstantAvailabilityRecord` (the JSON body of an availability
response): its entries in `Object.entries` order. -/
def AvailPayload : Type := List (String × AvailValue)

mutual

/-- `RealDebridService.hasCachedNested`: falsy and non-object primitives are
not cached, arrays count when non-empty (`value.length > 0`), objects when
some value does. -/
def hasCachedNested : AvailValue → Bool
  | .nullish => false
  | .prim => false
  | .arr l => !l.isEmpty
  | .obj fs => hasCachedNestedFields fs

/-- `Object.values(record).some((entry) => hasCachedNested(entry))`. -/
def hasCachedNestedFields : List (String × AvailValue) → Bool
  | [] => false
  | (_, v) :: rest => hasCachedNested v || hasCachedNestedFields rest

end

/-- JS property read `record[key]` on a plain object (missing keys read as
`undefined`, i.e. `.nullish`). -/
def objGet (fs : List (String × AvailValue)) (k : String) : AvailValue :=
  match fs.find? (fun p => p.1 == k) with
  | some p => p.2
  | none => .nullish

/-- `RealDebridService.isInstantAvailabilityCached`: an object value is
cached when its `rd` or `rdp` member has cached nested content; anything
else (falsy, primitive, array without such keys) is not. -/
def isInstantAvailabilityCached : AvailValue → Bool
  | .obj fs => hasCachedNested (objGet fs "rd") || hasCachedNested (objGet fs "rdp")
  | _ => false

/-- `RealDebridService.isPayloadEmpty`: no keys. -/
def isPayloadEmpty (p : AvailPayload) : Bool := p.isEmpty

/-- `Set.prototype.add`: keep insertion order, ignore duplicates. -/
def setAdd (l : List String) (x : String) : List String :=
  if l.contains x then l else l ++ [x]

/-- Add every element of `xs` to the set `res`, in order. -/
def addAll (res : List String) (xs : List String) : List String :=
  xs.foldl setAdd res

/-- `RealDebridService.collectCachedHashesFromPayload`: the lower-cased keys
of the entries reporting cached content, in payload order. -/
def collectCachedHashesFromPayload (payload : AvailPayload) : List String :=
  payload.foldl
    (fun acc kv => if isInstantAvailabilityCached kv.2 then setAdd acc (lowerStr kv.1) else acc)
    []

/-- `RealDebridService.updateAvailabilityCache`: every listed hash gets a
fresh entry keyed by its lower-cased form, flagged by membership in
`cachedHashes`, expiring `INSTANT_AVAILABILITY_TTL_MS` after `now`. -/
def updateAvailabilityCache (hashes : List String) (cachedHashes : List String)
    (now : Nat) (cache : AvailCache) : AvailCache :=
  hashes.foldl
    (fun c h =>
      cacheSet c (lowerStr h)
        ⟨cachedHashes.contains (lowerStr h), now + INSTANT_AVAILABILITY_TTL_MS⟩)
    cache

/-- `String.prototype.toUpperCase` (ASCII range, as exercised here). -/
def upperStr (s : String) : String := ⟨s.data.map Char.toUpper⟩

/-- `Array.prototype.join(sep)`. -/
def joinSep (sep : String) : List String → String
  | [] => ""
  | [x] => x
  | x :: y :: xs => x ++ sep ++ joinSep sep (y :: xs)

/-- The shared endpoint root of all instant-availability requests. -/
def availabilityBase : String :=
  "https://api.real-debrid.com/rest/1.0/torrents/instantAvailability/"

/-- The slash-joined batch endpoint for a chunk. -/
def slashEndpoint (chunk : List String) : String :=
  availabilityBase ++ joinSep "/" (chunk.map upperStr)

/-- The comma-joined batch endpoint for a chunk. -/
def commaEndpoint (chunk : List String) : String :=
  availabilityBase ++ joinSep "," (chunk.map upperStr)

/-- The single-hash endpoint. -/
def singleEndpoint (h : String) : String :=
  availabilityBase ++ upperStr h

/-- `hashes.map(h => h?.toLowerCase()).filter(Boolean)`. -/
def normalizeHashes (hashes : List String) : List String :=
  (hashes.map lowerStr).filter (fun h => h != "")

/-- The cache-partition loop of `fetchCachedInfoHashes`: live entries are
authoritative (`cached` hashes join the result), dead or missing entries
queue the hash for fetching when a token is present. -/
def availScanGo (cache : AvailCache) (now : Nat) (tok : Bool) :
    List String → List String × List String → List String × List String
  | [], st => st
  | h :: rest, st =>
    match cacheGet cache h with
    | some e =>
      if now < e.expires then
        availScanGo cache now tok rest
          (if e.cached then setAdd st.1 h else st.1, st.2)
      else if tok then availScanGo cache now tok rest (st.1, st.2 ++ [h])
      else availScanGo cache now tok rest st
    | none =>
      if tok then availScanGo cache now tok rest (st.1, st.2 ++ [h])
      else availScanGo cache now tok rest st

/-- The partition of the normalized hashes into (already cached, to fetch). -/
def availScan (cache : AvailCache) (now : Nat) (tok : Bool) (hs : List String) :
    List String × List String :=
  availScanGo cache now tok hs ([], [])

/-- `hashesToFetch.slice(i, i + chunkSize)` stepping by `chunkSize`, with the
list length as fuel. -/
def chunksOfAux (n : Nat) : Nat → List String → List (List String)
  | _, [] => []
  | 0, l => [l]
  | fuel + 1, l => l.take n :: chunksOfAux n fuel (l.drop n)

/-- The chunking of the fetch queue (`chunkSize = 50` at the call site). -/
def chunksOf (n : Nat) (l : List String) : List (List String) :=
  chunksOfAux n l.length l

/-- The mutable state threaded through the fetch loops: the result set, the
static cache, and the ordered log of issued availability requests. -/
structure AvailState where
  result : List String
  cache : AvailCache
  log : List String

/-- `RealDebridService.fetchPerHash`: one request per hash; collected hashes
join the result, and the hash's cache entry is (re)written whether or not the
request produced content. -/
def fetchPerHash (net : String → Option AvailPayload) (now : Nat)
    (chunk : List String) (st : AvailState) : AvailState :=
  chunk.foldl
    (fun st h =>
      let ep := singleEndpoint h
      let perHashCached :=
        match net ep with
        | some p => if isPayloadEmpty p then [] else collectCachedHashesFromPayload p
        | none => []
      { result := addAll st.result perHashCached
        cache := updateAvailabilityCache [h] perHashCached now st.cache
        log := st.log ++ [ep] })
    st

/-- The comma-joined retry and per-hash fallback of the chunk loop in
`fetchCachedInfoHashes`, reached when the slash-joined request errored or
returned an empty record (the slash endpoint is already in the log suffix
written here). -/
def commaPhase (net : String → Option AvailPayload) (now : Nat)
    (st : AvailState) (chunk : List String) : AvailState :=
  match net (commaEndpoint chunk) with
  | some p =>
    if isPayloadEmpty p then
      fetchPerHash net now chunk
        { st with log := st.log ++ [slashEndpoint chunk, commaEndpoint chunk] }
    else
      { result := addAll st.result (collectCachedHashesFromPayload p)
        cache := updateAvailabilityCache chunk (collectCachedHashesFromPayload p) now st.cache
        log := st.log ++ [slashEndpoint chunk, commaEndpoint chunk] }
  | none =>
    fetchPerHash net now chunk
      { st with log := st.log ++ [slashEndpoint chunk, commaEndpoint chunk] }

/-- One iteration of the chunk loop in `fetchCachedInfoHashes`: try the
slash-joined endpoint; on content, collect and cache the whole chunk; on an
empty or failed response continue with `commaPhase` (comma-joined retry, then
per-hash fallback), exactly the reassignment flow of the source. -/
def processChunk (net : String → Option AvailPayload) (now : Nat)
    (st : AvailState) (chunk : List String) : AvailState :=
  match net (slashEndpoint chunk) with
  | some p =>
    if isPayloadEmpty p then commaPhase net now st chunk
    else
      { result := addAll st.result (collectCachedHashesFromPayload p)
        cache := updateAvailabilityCache chunk (collectCachedHashesFromPayload p) now st.cache
        log := st.log ++ [slashEndpoint chunk] }
  | none => commaPhase net now st chunk

/-- `RealDebridService.fetchCachedInfoHashes` over a network oracle `net`
(endpoint to optional JSON body; `none` is an HTTP error or thrown fetch),
also returning the updated static cache and the ordered request log. -/
def fetchCachedInfoHashes (net : String → Option AvailPayload) (cache : AvailCache)
    (now : Nat) (hashes : List String) (token : Option String) : AvailState :=
  if hashes.isEmpty then ⟨[], cache, []⟩
  else
    if !truthy token ||
        (availScan cache now (truthy token) (normalizeHashes hashes)).2.isEmpty then
      ⟨(availScan cache now (truthy token) (normalizeHashes hashes)).1, cache, []⟩
    else
      (chunksOf 50 (availScan cache now (truthy token) (normalizeHashes hashes)).2).foldl
        (processChunk net now)
        ⟨(availScan cache now (truthy token) (normalizeHashes hashes)).1, cache, []⟩

/-- Modelled from the spec: whether an endpoint answers with non-empty
content (as opposed to erroring or returning an empty record). -/
def availOk (net : String → Option AvailPayload) (ep : String) : Bool :=
  match net ep with
  | some p => !isPayloadEmpty p
  | none => false

/-- Modelled from the spec: the claimed per-chunk strategy order — the
slash-joined call alone when it has content; else slash then comma; else
slash, comma, then one call per hash of the chunk. -/
def chunkCallPlan (net : String → Option AvailPayload) (chunk : List String) :
    List String :=
  if availOk net (slashEndpoint chunk) then [slashEndpoint chunk]
  else if availOk net (commaEndpoint chunk) then
    [slashEndpoint chunk, commaEndpoint chunk]
  else slashEndpoint chunk :: commaEndpoint chunk :: chunk.map singleEndpoint

/-- The hashes collected by one iteration of `fetchPerHash`. -/
def perHashCachedOf (net : String → Option AvailPayload) (h : String) : List String :=
  match net (singleEndpoint h) with
  | some p => if isPayloadEmpty p then [] else collectCachedHashesFromPayload p
  | none => []

/-- Having an entry whose expiry is exactly `now` plus the TTL. -/
def freshEntry (now : Nat) (c : AvailCache) (x : String) : Prop :=
  ∃ e, cacheGet c x = some e ∧ e.expires = now + INSTANT_AVAILABILITY_TTL_MS


/-! ## Theorems -/

theorem leLex_refl (x : TorrentFile × ℚ) : leLex x x := Or.inr ⟨rfl, le_refl _⟩

theorem leLex_trans {x y z : TorrentFile × ℚ} (h₁ : leLex x y) (h₂ : leLex y z) : leLex x z := by
  rcases h₁ with h₁ | ⟨h₁, h₁b⟩ <;> rcases h₂ with h₂ | ⟨h₂, h₂b⟩
  · exact Or.inl (h₁.trans h₂)
  · exact Or.inl (h₂ ▸ h₁)
  · exact Or.inl (h₁ ▸ h₂)
  · exact Or.inr ⟨h₁.trans h₂, h₁b.trans h₂b⟩

theorem leLex_scoredStep_left (e y : TorrentFile × ℚ) : leLex e (scoredStep e y) := by
  unfold scoredStep
  split
  next h =>
    rcases h with h | ⟨h, hb⟩
    · exact Or.inl h
    · exact Or.inr ⟨h, le_of_lt hb⟩
  next h => exact leLex_refl e

theorem leLex_scoredStep_right (e y : TorrentFile × ℚ) : leLex y (scoredStep e y) := by
  unfold scoredStep
  split
  next h => exact leLex_refl y
  next h =>
    push_neg at h
    rcases lt_or_eq_of_le h.1 with hlt | heq
    · exact Or.inl hlt
    · exact Or.inr ⟨heq, h.2 heq.symm⟩

theorem scoredFold_mem (rest : List (TorrentFile × ℚ)) (e : TorrentFile × ℚ) :
    rest.foldl scoredStep e ∈ e :: rest := by
  induction rest generalizing e with
  | nil => exact List.mem_singleton.mpr rfl
  | cons y t ih =>
    have h := ih (scoredStep e y)
    rcases List.mem_cons.mp h with h | h
    · rw [List.foldl_cons, h]
      unfold scoredStep
      split
      · exact List.mem_cons_of_mem _ (List.mem_cons_self _ _)
      · exact List.mem_cons_self _ _
    · exact List.mem_cons_of_mem _ (List.mem_cons_of_mem _ h)

theorem scoredFold_max (rest : List (TorrentFile × ℚ)) (e : TorrentFile × ℚ) :
    ∀ x ∈ e :: rest, leLex x (rest.foldl scoredStep e) := by
  induction rest generalizing e with
  | nil => intro x hx; rw [List.mem_singleton.mp hx]; exact leLex_refl _
  | cons y t ih =>
    intro x hx
    rw [List.foldl_cons]
    rcases List.mem_cons.mp hx with hx | hx
    · exact leLex_trans (hx ▸ leLex_scoredStep_left e y)
        (ih (scoredStep e y) _ (List.mem_cons_self _ _))
    · rcases List.mem_cons.mp hx with hx | hx
      · exact leLex_trans (hx ▸ leLex_scoredStep_right e y)
          (ih (scoredStep e y) _ (List.mem_cons_self _ _))
      · exact ih (scoredStep e y) x (List.mem_cons_of_mem _ hx)

theorem bytesFold_mem (vs : List TorrentFile) (v : TorrentFile) :
    vs.foldl bytesStep v ∈ v :: vs := by
  induction vs generalizing v with
  | nil => exact List.mem_singleton.mpr rfl
  | cons y t ih =>
    have h := ih (bytesStep v y)
    rcases List.mem_cons.mp h with h | h
    · rw [List.foldl_cons, h]
      unfold bytesStep
      split
      · exact List.mem_cons_of_mem _ (List.mem_cons_self _ _)
      · exact List.mem_cons_self _ _
    · exact List.mem_cons_of_mem _ (List.mem_cons_of_mem _ h)

theorem bytesFold_max (vs : List TorrentFile) (v : TorrentFile) :
    ∀ f ∈ v :: vs, f.bytes ≤ (vs.foldl bytesStep v).bytes := by
  induction vs generalizing v with
  | nil => intro f hf; rw [List.mem_singleton.mp hf]; simp [List.foldl_nil]
  | cons y t ih =>
    intro f hf
    rw [List.foldl_cons]
    have hv : v.bytes ≤ (bytesStep v y).bytes := by
      unfold bytesStep; split
      · next h => exact le_of_lt h
      · exact le_refl _
    have hy : y.bytes ≤ (bytesStep v y).bytes := by
      unfold bytesStep; split
      · exact le_refl _
      · next h => exact le_of_not_lt h
    rcases List.mem_cons.mp hf with hf | hf
    · exact le_trans (hf ▸ hv) (ih (bytesStep v y) _ (List.mem_cons_self _ _))
    · rcases List.mem_cons.mp hf with hf | hf
      · exact le_trans (hf ▸ hy) (ih (bytesStep v y) _ (List.mem_cons_self _ _))
      · exact ih (bytesStep v y) f (List.mem_cons_of_mem _ hf)

/-! ## Characterizing `findContextualMatch` and `selectBestFile` -/

theorem findContextualMatch_eq_fold (lg : Nat → ℚ) (files : List TorrentFile)
    (c : StreamContext) :
    findContextualMatch lg files (some c) =
      match (files.map (fun f => (f, scoreFileAgainstContext lg c f))).filter
          (fun e => decide (0 < e.2)) with
      | [] => none
      | e :: rest => some (rest.foldl scoredStep e).1 := rfl

theorem findContextualMatch_none (lg : Nat → ℚ) (files : List TorrentFile)
    (c : StreamContext) (h : ∀ f ∈ files, scoreFileAgainstContext lg c f ≤ 0) :
    findContextualMatch lg files (some c) = none := by
  rw [findContextualMatch_eq_fold]
  have hnil : (files.map (fun f => (f, scoreFileAgainstContext lg c f))).filter
      (fun e => decide (0 < e.2)) = [] := by
    rw [List.filter_eq_nil_iff]
    intro e he
    rcases List.mem_map.mp he with ⟨f, hf, rfl⟩
    simpa using not_lt.mpr (h f hf)
  rw [hnil]

theorem findContextualMatch_pos (lg : Nat → ℚ) (files : List TorrentFile)
    (c : StreamContext) (hex : ∃ f ∈ files, 0 < scoreFileAgainstContext lg c f) :
    ∃ r, findContextualMatch lg files (some c) = some r ∧ r ∈ files ∧
      0 < scoreFileAgainstContext lg c r ∧
      ∀ f ∈ files, 0 < scoreFileAgainstContext lg c f →
        scoreFileAgainstContext lg c f < scoreFileAgainstContext lg c r ∨
        (scoreFileAgainstContext lg c f = scoreFileAgainstContext lg c r ∧
          f.bytes ≤ r.bytes) := by
  rw [findContextualMatch_eq_fold]
  set scored := (files.map (fun f => (f, scoreFileAgainstContext lg c f))).filter
      (fun e => decide (0 < e.2)) with hscored
  have hmem_scored : ∀ f ∈ files, 0 < scoreFileAgainstContext lg c f →
      (f, scoreFileAgainstContext lg c f) ∈ scored := by
    intro f hf hpos
    rw [hscored]
    exact List.mem_filter.mpr ⟨List.mem_map.mpr ⟨f, hf, rfl⟩, by simpa using hpos⟩
  have hscored_shape : ∀ x ∈ scored,
      (∃ f ∈ files, (f, scoreFileAgainstContext lg c f) = x) ∧ 0 < x.2 := by
    intro x hx
    rw [hscored] at hx
    rcases List.mem_filter.mp hx with ⟨hmap, hpos⟩
    exact ⟨List.mem_map.mp hmap, by simpa using hpos⟩
  rcases hex with ⟨f₀, hf₀, hpos₀⟩
  have hne : scored ≠ [] := fun h => by
    have := hmem_scored f₀ hf₀ hpos₀
    rw [h] at this
    exact List.not_mem_nil _ this
  rcases hsc : scored with _ | ⟨e, rest⟩
  · exact absurd hsc hne
  have hfold_mem := scoredFold_mem rest e
  have hfold_max := scoredFold_max rest e
  rw [← hsc] at hfold_mem hfold_max
  set r := rest.foldl scoredStep e with hr
  rcases hscored_shape r hfold_mem with ⟨⟨fr, hfr, hreq⟩, hrpos⟩
  have hr1 : r.1 = fr := by rw [← hreq]
  have hr2 : r.2 = scoreFileAgainstContext lg c r.1 := by rw [← hreq]
  refine ⟨r.1, rfl, hr1 ▸ hfr, hr2 ▸ hrpos, ?_⟩
  intro f hf hpos
  have hlex := hfold_max (f, scoreFileAgainstContext lg c f) (hmem_scored f hf hpos)
  rcases hlex with h | ⟨h, hb⟩
  · left; rw [← hr2]; exact h
  · right; exact ⟨by rw [← hr2]; exact h, hb⟩

theorem selectBestFile_no_video (lg : Nat → ℚ) (files : List TorrentFile)
    (ctx : Option StreamContext)
    (h : files.filter (fun f => isVideoFile f.path) = []) :
    selectBestFile lg files ctx = files.head? := by
  unfold selectBestFile
  rw [h]

theorem selectBestFile_video (lg : Nat → ℚ) (files : List TorrentFile)
    (ctx : Option StreamContext) (v : TorrentFile) (vs : List TorrentFile)
    (h : files.filter (fun f => isVideoFile f.path) = v :: vs) :
    selectBestFile lg files ctx =
      match findContextualMatch lg (v :: vs) ctx with
      | some f => some f
      | none => some (vs.foldl bytesStep v) := by
  unfold selectBestFile
  rw [h]

/-- `selectBestFile` on a non-empty list always yields a file (the
"no playable files" branch of the resolution workflow is unreachable). -/
theorem selectBestFile_isSome (lg : Nat → ℚ) (files : List TorrentFile)
    (ctx : Option StreamContext) (hne : files ≠ []) :
    ∃ r, selectBestFile lg files ctx = some r := by
  rcases hvf : files.filter (fun f => isVideoFile f.path) with _ | ⟨v, vs⟩
  · rw [selectBestFile_no_video lg files ctx hvf]
    rcases files with _ | ⟨f, fs⟩
    · exact absurd rfl hne
    · exact ⟨f, rfl⟩
  · rw [selectBestFile_video lg files ctx v vs hvf]
    rcases hm : findContextualMatch lg (v :: vs) ctx with _ | r
    · exact ⟨_, rfl⟩
    · exact ⟨r, rfl⟩

theorem findContextualMatch_mem (lg : Nat → ℚ) (files : List TorrentFile)
    (ctx : Option StreamContext) (r : TorrentFile)
    (h : findContextualMatch lg files ctx = some r) : r ∈ files := by
  rcases ctx with _ | c
  · exact absurd h (by simp [findContextualMatch])
  rw [findContextualMatch_eq_fold] at h
  rcases hsc : (files.map (fun f => (f, scoreFileAgainstContext lg c f))).filter
      (fun e => decide (0 < e.2)) with _ | ⟨e, rest⟩
  · rw [hsc] at h; exact absurd h (by simp)
  · rw [hsc] at h
    have hmem := scoredFold_mem rest e
    rw [← hsc] at hmem
    have := List.mem_filter.mp hmem
    rcases List.mem_map.mp this.1 with ⟨f, hf, hfeq⟩
    have : r = f := by
      have h1 : (rest.foldl scoredStep e).1 = f := by rw [← hfeq]
      simp only [Option.some.injEq] at h
      rw [← h, h1]
    exact this ▸ hf

theorem score_showFile (lg : Nat → ℚ) :
    scoreFileAgainstContext lg episodeCtx showFile = 16 + lg 2000000000 := by
  simp only [scoreFileAgainstContext, showFile]
  rw [show (normalize (some "Show.S02E05.mkv")).isEmpty = false from by decide]
  rw [show scoreEpisodeMatch (normalize (some "Show.S02E05.mkv")) episodeCtx = 16 from by decide]
  simp [episodeCtx, truthyNum, truthy]

theorem score_extrasFile (lg : Nat → ℚ) :
    scoreFileAgainstContext lg episodeCtx extrasFile = 16 + lg 200000000 := by
  simp only [scoreFileAgainstContext, extrasFile]
  rw [show (normalize (some "Show.S02E05.Extras.mkv")).isEmpty = false from by decide]
  rw [show scoreEpisodeMatch (normalize (some "Show.S02E05.Extras.mkv")) episodeCtx = 16
    from by decide]
  simp [episodeCtx, truthyNum, truthy]

theorem selectBestFile_scenario (lg : Nat → ℚ) (hmono : Monotone lg)
    (hnn : ∀ n, 0 ≤ lg n) :
    selectBestFile lg [showFile, extrasFile] (some episodeCtx) = some showFile := by
  have hfilter : [showFile, extrasFile].filter (fun f => isVideoFile f.path) =
      [showFile, extrasFile] := by decide
  rw [selectBestFile_video lg _ _ showFile [extrasFile] hfilter]
  rw [findContextualMatch_eq_fold]
  have hp1 : decide ((0:ℚ) < 16 + lg 2000000000) = true :=
    decide_eq_true (by have := hnn 2000000000; linarith)
  have hp2 : decide ((0:ℚ) < 16 + lg 200000000) = true :=
    decide_eq_true (by have := hnn 200000000; linarith)
  simp only [List.map_cons, List.map_nil, score_showFile, score_extrasFile,
    List.filter_cons, hp1, hp2, if_true, List.filter_nil]
  have hcond : ¬((16 + lg 2000000000 : ℚ) < 16 + lg 200000000 ∨
      ((16 + lg 2000000000 : ℚ) = 16 + lg 200000000 ∧
        (showFile, (16:ℚ) + lg 2000000000).1.bytes < (extrasFile, (16:ℚ) + lg 200000000).1.bytes)) := by
    push_neg
    refine ⟨?_, ?_⟩
    · have := hmono (show (200000000:Nat) ≤ 2000000000 by norm_num)
      linarith
    · intro _
      show (extrasFile.bytes ≤ showFile.bytes)
      norm_num [showFile, extrasFile]
  simp only [List.foldl_cons, List.foldl_nil, scoredStep, hcond, if_false]

/-- C1: for every non-empty file list, best-file selection restricts to files
whose path has a recognized video extension and, if none qualify, returns the
first file of the whole set; among qualifying files, with a context it returns
the file with the highest score (ties broken by larger byte size), and when no
file scores above zero or no context was supplied it returns the largest
qualifying file by byte size; in particular, with context
`{season: 2, episode: 5}` and files `Show.S02E05.mkv` (2 GB) and
`Show.S02E05.Extras.mkv` (200 MB), it chooses the 2 GB file.
(`lg` abstracts `Math.log10(bytes + 1)`: monotone and non-negative.) -/
theorem claim_C1_selectBestFile (lg : Nat → ℚ) (hmono : Monotone lg)
    (hnn : ∀ n, 0 ≤ lg n) (files : List TorrentFile) (ctx : Option StreamContext)
    (hne : files ≠ []) :
    (files.filter (fun f => isVideoFile f.path) = [] →
      selectBestFile lg files ctx = files.head?) ∧
    (∀ v vs, files.filter (fun f => isVideoFile f.path) = v :: vs →
      (∀ r, selectBestFile lg files ctx = some r → r ∈ v :: vs) ∧
      (∀ c, ctx = some c →
        (∃ f ∈ v :: vs, 0 < scoreFileAgainstContext lg c f) →
        ∃ r, selectBestFile lg files ctx = some r ∧
          0 < scoreFileAgainstContext lg c r ∧
          ∀ f ∈ v :: vs, 0 < scoreFileAgainstContext lg c f →
            scoreFileAgainstContext lg c f < scoreFileAgainstContext lg c r ∨
            (scoreFileAgainstContext lg c f = scoreFileAgainstContext lg c r ∧
              f.bytes ≤ r.bytes)) ∧
      ((ctx = none ∨ ∃ c, ctx = some c ∧
          ∀ f ∈ v :: vs, scoreFileAgainstContext lg c f ≤ 0) →
        ∃ r, selectBestFile lg files ctx = some r ∧ r ∈ v :: vs ∧
          ∀ f ∈ v :: vs, f.bytes ≤ r.bytes)) ∧
    selectBestFile lg [showFile, extrasFile] (some episodeCtx) = some showFile := by
  refine ⟨selectBestFile_no_video lg files ctx, ?_, selectBestFile_scenario lg hmono hnn⟩
  intro v vs hvf
  have hsel := selectBestFile_video lg files ctx v vs hvf
  refine ⟨?_, ?_, ?_⟩
  · intro r hr
    rw [hsel] at hr
    rcases hm : findContextualMatch lg (v :: vs) ctx with _ | r'
    · rw [hm] at hr
      simp only [Option.some.injEq] at hr
      exact hr ▸ bytesFold_mem vs v
    · rw [hm] at hr
      simp only [Option.some.injEq] at hr
      exact hr ▸ findContextualMatch_mem lg (v :: vs) ctx r' hm
  · intro c hctx hex
    subst hctx
    rcases findContextualMatch_pos lg (v :: vs) c hex with ⟨r, hm, hrmem, hrpos, hrmax⟩
    exact ⟨r, by rw [hsel, hm], hrpos, hrmax⟩
  · intro hno
    have hm : findContextualMatch lg (v :: vs) ctx = none := by
      rcases hno with rfl | ⟨c, rfl, hle⟩
      · rfl
      · exact findContextualMatch_none lg (v :: vs) c hle
    rw [hsel, hm]
    exact ⟨vs.foldl bytesStep v, rfl, bytesFold_mem vs v, bytesFold_max vs v⟩

/-- Witness for C1 at a concrete monotone `lg` and the scenario input. -/
theorem claim_C1_selectBestFile_witness :
    selectBestFile (fun n => (n : ℚ)) [showFile, extrasFile] (some episodeCtx) =
      some showFile :=
  (claim_C1_selectBestFile (fun n => (n : ℚ))
    (fun _ _ h => by exact Nat.cast_le.mpr h)
    (fun n => by positivity)
    [showFile, extrasFile] (some episodeCtx)
    (by simp)).2.2

theorem roundHalfUp_eq_of (n : Nat) (q : ℚ) (h1 : (n : ℚ) ≤ q + 1/2)
    (h2 : q + 1/2 < n + 1) : roundHalfUp q = n := by
  unfold roundHalfUp
  have hfl : ⌊q + 1/2⌋ = (n : ℤ) :=
    Int.floor_eq_iff.mpr ⟨by exact_mod_cast h1, by push_cast; exact h2⟩
  rw [hfl]
  exact Int.toNat_natCast n

theorem formatSizeLoop_k0 (v : ℚ) (h : v < 1024) :
    formatSizeLoop v 0 5 = (v, 0) := by
  simp only [formatSizeLoop]
  rw [if_neg (by rintro ⟨h1, _⟩; exact absurd h1 (not_le.mpr h))]

theorem formatSizeLoop_k1 (v : ℚ) (h0 : 1024 ≤ v) (h1 : v < 1024 ^ 2) :
    formatSizeLoop v 0 5 = (v / 1024, 1) := by
  simp only [formatSizeLoop]
  rw [if_pos ⟨h0, by norm_num⟩]
  rw [if_neg (by
    rintro ⟨hg, _⟩
    rw [le_div_iff₀ (by norm_num : (0:ℚ) < 1024)] at hg
    have : v < 1024 * 1024 := by nlinarith [h1]
    linarith)]

theorem formatSizeLoop_k2 (v : ℚ) (h0 : 1024 ^ 2 ≤ v) (h1 : v < 1024 ^ 3) :
    formatSizeLoop v 0 5 = (v / 1024 / 1024, 2) := by
  simp only [formatSizeLoop]
  rw [if_pos ⟨by nlinarith [h0], by norm_num⟩]
  rw [if_pos ⟨by rw [le_div_iff₀ (by norm_num : (0:ℚ) < 1024)]; nlinarith [h0], by norm_num⟩]
  rw [if_neg (by
    rintro ⟨hg, _⟩
    rw [le_div_iff₀ (by norm_num : (0:ℚ) < 1024), le_div_iff₀ (by norm_num : (0:ℚ) < 1024)] at hg
    nlinarith [h1])]

theorem formatSizeLoop_k3 (v : ℚ) (h0 : 1024 ^ 3 ≤ v) (h1 : v < 1024 ^ 4) :
    formatSizeLoop v 0 5 = (v / 1024 / 1024 / 1024, 3) := by
  simp only [formatSizeLoop]
  rw [if_pos ⟨by nlinarith [h0], by norm_num⟩]
  rw [if_pos ⟨by rw [le_div_iff₀ (by norm_num : (0:ℚ) < 1024)]; nlinarith [h0], by norm_num⟩]
  rw [if_pos ⟨by
    rw [le_div_iff₀ (by norm_num : (0:ℚ) < 1024), le_div_iff₀ (by norm_num : (0:ℚ) < 1024)]
    nlinarith [h0], by norm_num⟩]
  rw [if_neg (by
    rintro ⟨hg, _⟩
    rw [le_div_iff₀ (by norm_num : (0:ℚ) < 1024), le_div_iff₀ (by norm_num : (0:ℚ) < 1024),
      le_div_iff₀ (by norm_num : (0:ℚ) < 1024)] at hg
    nlinarith [h1])]

theorem formatSizeLoop_k4 (v : ℚ) (h0 : 1024 ^ 4 ≤ v) :
    formatSizeLoop v 0 5 = (v / 1024 / 1024 / 1024 / 1024, 4) := by
  simp only [formatSizeLoop]
  rw [if_pos ⟨by nlinarith [h0], by norm_num⟩]
  rw [if_pos ⟨by rw [le_div_iff₀ (by norm_num : (0:ℚ) < 1024)]; nlinarith [h0], by norm_num⟩]
  rw [if_pos ⟨by
    rw [le_div_iff₀ (by norm_num : (0:ℚ) < 1024), le_div_iff₀ (by norm_num : (0:ℚ) < 1024)]
    nlinarith [h0], by norm_num⟩]
  rw [if_pos ⟨by
    rw [le_div_iff₀ (by norm_num : (0:ℚ) < 1024), le_div_iff₀ (by norm_num : (0:ℚ) < 1024),
      le_div_iff₀ (by norm_num : (0:ℚ) < 1024)]
    nlinarith [h0], by norm_num⟩]
  rw [if_neg (by rintro ⟨_, hg⟩; exact absurd hg (by norm_num))]

/-- C9 (counterexample): at 15360 bytes (15 KiB) the code prints `"15 KB"` —
an integer — while the claim ("one decimal place once the value is at least
10 of a unit, else an integer") demands `"15.0 KB"`.  The code's rule is the
reverse of the claimed one. -/
theorem claim_C9_counterexample :
    formatSize 15360 = "15 KB" ∧ formatSizeClaimed 15360 = "15.0 KB" ∧
      formatSize 15360 ≠ formatSizeClaimed 15360 := by
  have h1 : formatSize 15360 = "15 KB" := by
    rw [formatSize]
    norm_num [formatSizeLoop]
    rw [roundHalfUp_eq_of 15 15 (by norm_num) (by norm_num)]
    rfl
  have h2 : formatSizeClaimed 15360 = "15.0 KB" := by
    rw [formatSizeClaimed]
    norm_num [formatSizeLoop]
    rw [toFixed1, roundHalfUp_eq_of 150 (15 * 10) (by norm_num) (by norm_num)]
    rfl
  exact ⟨h1, h2, by rw [h1, h2]; decide⟩

/-- C9 (amended): for every byte size, `formatSize` scales by binary (1024)
units capped at TB, prints a rounded integer for plain bytes, and for the
larger units shows one decimal place while the value is below 10 of the unit
and an integer once it is at least 10 — i.e. it coincides with
`formatSizeAmended`, the amended-spec rendering. -/
theorem claim_C9_formatSize : ∀ size : ℚ, formatSize size = formatSizeAmended size := by
  intro q
  by_cases h0 : q ≤ 0
  · rw [formatSize, formatSizeAmended, if_pos h0, if_pos h0]
  push_neg at h0
  rw [formatSize, formatSizeAmended, if_neg (not_le.mpr h0), if_neg (not_le.mpr h0)]
  by_cases h1 : q < 1024
  · rw [formatSizeLoop_k0 q h1, if_pos h1]
    simp
  rw [if_neg h1]
  push_neg at h1
  by_cases h2 : q < 1024 ^ 2
  · rw [formatSizeLoop_k1 q h1 h2, if_pos h2]
    have : q / 1024 = q / 1024 ^ 1 := by norm_num
    rw [this]
    simp
  rw [if_neg h2]
  push_neg at h2
  by_cases h3 : q < 1024 ^ 3
  · rw [formatSizeLoop_k2 q h2 h3, if_pos h3]
    have : q / 1024 / 1024 = q / 1024 ^ 2 := by rw [div_div]; norm_num
    rw [this]
    simp
  rw [if_neg h3]
  push_neg at h3
  by_cases h4 : q < 1024 ^ 4
  · rw [formatSizeLoop_k3 q h3 h4, if_pos h4]
    have : q / 1024 / 1024 / 1024 = q / 1024 ^ 3 := by rw [div_div, div_div]; norm_num
    rw [this]
    simp
  rw [if_neg h4]
  push_neg at h4
  rw [formatSizeLoop_k4 q h4]
  have : q / 1024 / 1024 / 1024 / 1024 = q / 1024 ^ 4 := by
    rw [div_div, div_div, div_div]; norm_num
  rw [this]
  simp

theorem char_toNat_lt (c : Char) : c.toNat < 0x110000 := by
  rcases c with ⟨v, hv⟩
  rcases hv with h | ⟨h1, h2⟩
  · exact Nat.lt_trans (by exact_mod_cast h) (by norm_num)
  · exact_mod_cast h2

theorem utf8DecodeChar_encode (c : Char) (rest : List Nat) :
    utf8DecodeChar (utf8EncodeChar c ++ rest) = some (c, rest) := by
  have hlt := char_toNat_lt c
  unfold utf8EncodeChar
  by_cases h1 : c.toNat < 0x80
  · rw [if_pos h1]
    unfold utf8DecodeChar
    simp only [List.singleton_append]
    rw [if_pos h1, Char.ofNat_toNat]
  rw [if_neg h1]
  push_neg at h1
  by_cases h2 : c.toNat < 0x800
  · rw [if_pos h2]
    unfold utf8DecodeChar
    simp only [List.cons_append, List.singleton_append]
    rw [if_neg (by omega), if_neg (by omega), if_pos (by omega)]
    rw [if_pos (by constructor <;> omega)]
    rw [show 0xC0 + c.toNat / 0x40 - 0xC0 = c.toNat / 0x40 by omega]
    rw [show 0x80 + c.toNat % 0x40 - 0x80 = c.toNat % 0x40 by omega]
    rw [show c.toNat / 0x40 * 0x40 + c.toNat % 0x40 = c.toNat by omega]
    rw [Char.ofNat_toNat, List.nil_append]
  rw [if_neg h2]
  push_neg at h2
  by_cases h3 : c.toNat < 0x10000
  · rw [if_pos h3]
    unfold utf8DecodeChar
    simp only [List.cons_append, List.singleton_append]
    rw [if_neg (by omega), if_neg (by omega), if_neg (by omega), if_pos (by omega)]
    rw [if_pos (by refine ⟨⟨?_, ?_⟩, ?_, ?_⟩ <;> omega)]
    rw [show 0xE0 + c.toNat / 0x1000 - 0xE0 = c.toNat / 0x1000 by omega]
    rw [show 0x80 + c.toNat / 0x40 % 0x40 - 0x80 = c.toNat / 0x40 % 0x40 by omega]
    rw [show 0x80 + c.toNat % 0x40 - 0x80 = c.toNat % 0x40 by omega]
    rw [show c.toNat / 0x1000 * 0x1000 + c.toNat / 0x40 % 0x40 * 0x40 + c.toNat % 0x40
        = c.toNat by omega]
    rw [Char.ofNat_toNat, List.nil_append]
  rw [if_neg h3]
  push_neg at h3
  unfold utf8DecodeChar
  simp only [List.cons_append, List.singleton_append]
  rw [if_neg (by omega), if_neg (by omega), if_neg (by omega), if_neg (by omega),
    if_pos (by omega)]
  rw [if_pos (by refine ⟨⟨?_, ?_⟩, ⟨?_, ?_⟩, ?_, ?_⟩ <;> omega)]
  rw [show 0xF0 + c.toNat / 0x40000 - 0xF0 = c.toNat / 0x40000 by omega]
  rw [show 0x80 + c.toNat / 0x1000 % 0x40 - 0x80 = c.toNat / 0x1000 % 0x40 by omega]
  rw [show 0x80 + c.toNat / 0x40 % 0x40 - 0x80 = c.toNat / 0x40 % 0x40 by omega]
  rw [show 0x80 + c.toNat % 0x40 - 0x80 = c.toNat % 0x40 by omega]
  rw [show c.toNat / 0x40000 * 0x40000 + c.toNat / 0x1000 % 0x40 * 0x1000 +
      c.toNat / 0x40 % 0x40 * 0x40 + c.toNat % 0x40 = c.toNat by omega]
  rw [Char.ofNat_toNat, List.nil_append]

theorem utf8EncodeChar_ne_nil (c : Char) : utf8EncodeChar c ≠ [] := by
  simp only [utf8EncodeChar]
  split_ifs <;> simp

theorem utf8DecodeLoop_encode : ∀ (cs : List Char) (fuel : Nat),
    ((cs.map utf8EncodeChar).flatten).length ≤ fuel →
    utf8DecodeLoop fuel ((cs.map utf8EncodeChar).flatten) = some cs := by
  intro cs
  induction cs with
  | nil => intro fuel _; simp [utf8DecodeLoop]
  | cons c cs ih =>
    intro fuel hfuel
    rcases List.exists_cons_of_ne_nil (utf8EncodeChar_ne_nil c) with ⟨b, bs, hb⟩
    have hsplit : (((c :: cs).map utf8EncodeChar).flatten)
        = utf8EncodeChar c ++ (cs.map utf8EncodeChar).flatten := by simp
    have hlen1 : 1 ≤ (utf8EncodeChar c).length := by rw [hb]; simp
    have hlen : ((cs.map utf8EncodeChar).flatten).length + 1 ≤ fuel := by
      rw [hsplit, List.length_append] at hfuel
      omega
    rcases fuel with _ | fuel
    · omega
    rw [hsplit]
    have hcons : utf8EncodeChar c ++ (cs.map utf8EncodeChar).flatten =
        b :: (bs ++ (cs.map utf8EncodeChar).flatten) := by rw [hb]; rfl
    rw [hcons]
    unfold utf8DecodeLoop
    rw [← hcons, utf8DecodeChar_encode c]
    show (utf8DecodeLoop fuel ((cs.map utf8EncodeChar).flatten)).bind
        (fun cs => some (c :: cs)) = some (c :: cs)
    rw [ih fuel (by omega)]
    rfl

theorem utf8Decode_encode (s : String) : utf8Decode (utf8Encode s) = some s := by
  unfold utf8Decode utf8Encode
  rw [utf8DecodeLoop_encode s.data _ (le_refl _)]
  simp [List.asString]

theorem b64Index_b64c : ∀ i, i < 64 → b64Index (b64c i) = some i := by decide

theorem b64c_mem : ∀ i, i < 64 → b64c i ∈ base64Chars := by decide

theorem base64Chars_props : ∀ c ∈ base64Chars, c ≠ '=' ∧ c ≠ '-' ∧ c ≠ '_' := by decide

theorem base64DecodeGroups_encode : ∀ (n : Nat) (bs : List Nat), bs.length ≤ n →
    (∀ x ∈ bs, x < 256) → base64DecodeGroups (base64EncodeGroups bs) = some bs := by
  intro n
  induction n with
  | zero =>
    intro bs hlen _
    rcases bs with _ | ⟨a, rest⟩
    · rfl
    · simp at hlen
  | succ n ih =>
    intro bs hlen hbound
    match bs with
    | [] => rfl
    | [a] =>
      have ha : a < 256 := hbound a (by simp)
      show base64DecodeGroups [b64c (a / 4), b64c (a % 4 * 16), '=', '='] = some [a]
      unfold base64DecodeGroups
      rw [b64Index_b64c _ (by omega), b64Index_b64c _ (by omega)]
      simp
      omega
    | [a, b] =>
      have ha : a < 256 := hbound a (by simp)
      have hb : b < 256 := hbound b (by simp)
      show base64DecodeGroups
        [b64c (a / 4), b64c (a % 4 * 16 + b / 16), b64c (b % 16 * 4), '='] = some [a, b]
      unfold base64DecodeGroups
      have hne : b64c (b % 16 * 4) ≠ '=' := (base64Chars_props _ (b64c_mem _ (by omega))).1
      rw [b64Index_b64c _ (by omega), b64Index_b64c _ (by omega),
        b64Index_b64c _ (by omega)]
      simp [hne]
      omega
    | [a, b, c] =>
      have ha : a < 256 := hbound a (by simp)
      have hb : b < 256 := hbound b (by simp)
      have hc : c < 256 := hbound c (by simp)
      show base64DecodeGroups
        (b64c (a / 4) :: b64c (a % 4 * 16 + b / 16) :: b64c (b % 16 * 4 + c / 64) ::
          b64c (c % 64) :: base64EncodeGroups []) = some [a, b, c]
      unfold base64DecodeGroups
      have hne3 : b64c (b % 16 * 4 + c / 64) ≠ '=' :=
        (base64Chars_props _ (b64c_mem _ (by omega))).1
      have hne4 : b64c (c % 64) ≠ '=' := (base64Chars_props _ (b64c_mem _ (by omega))).1
      rw [b64Index_b64c _ (by omega), b64Index_b64c _ (by omega),
        b64Index_b64c _ (by omega), b64Index_b64c _ (by omega)]
      have hrec : base64DecodeGroups (base64EncodeGroups []) = some [] := rfl
      simp [hne3, hne4, hrec]
      omega
    | a :: b :: c :: d :: rest2 =>
      have ha : a < 256 := hbound a (by simp)
      have hb : b < 256 := hbound b (by simp)
      have hc : c < 256 := hbound c (by simp)
      show base64DecodeGroups
        (b64c (a / 4) :: b64c (a % 4 * 16 + b / 16) :: b64c (b % 16 * 4 + c / 64) ::
          b64c (c % 64) :: base64EncodeGroups (d :: rest2)) = some (a :: b :: c :: d :: rest2)
      unfold base64DecodeGroups
      have hne3 : b64c (b % 16 * 4 + c / 64) ≠ '=' :=
        (base64Chars_props _ (b64c_mem _ (by omega))).1
      have hne4 : b64c (c % 64) ≠ '=' := (base64Chars_props _ (b64c_mem _ (by omega))).1
      rw [b64Index_b64c _ (by omega), b64Index_b64c _ (by omega),
        b64Index_b64c _ (by omega), b64Index_b64c _ (by omega)]
      have hrec : base64DecodeGroups (base64EncodeGroups (d :: rest2)) = some (d :: rest2) :=
        ih (d :: rest2) (by simp at hlen ⊢; omega) (fun x hx => hbound x (by simp at hx ⊢; tauto))
      simp [hne3, hne4, hrec]
      omega

theorem base64EncodeGroups_shape : ∀ (n : Nat) (bs : List Nat), bs.length ≤ n →
    (∀ x ∈ bs, x < 256) →
    ∃ body k, base64EncodeGroups bs = body ++ List.replicate k '=' ∧ k ≤ 2 ∧
      (body.length + k) % 4 = 0 ∧ (∀ c ∈ body, c ∈ base64Chars) ∧
      (bs ≠ [] → body ≠ []) := by
  intro n
  induction n with
  | zero =>
    intro bs hlen _
    rcases bs with _ | ⟨a, rest⟩
    · exact ⟨[], 0, rfl, by omega, by simp, by simp, by simp⟩
    · simp at hlen
  | succ n ih =>
    intro bs hlen hbound
    match bs with
    | [] => exact ⟨[], 0, rfl, by omega, by simp, by simp, by simp⟩
    | [a] =>
      have ha : a < 256 := hbound a (by simp)
      refine ⟨[b64c (a / 4), b64c (a % 4 * 16)], 2, rfl, by omega, by simp, ?_, by simp⟩
      intro c hc
      simp only [List.mem_cons, List.not_mem_nil, or_false] at hc
      rcases hc with rfl | rfl
      · exact b64c_mem _ (by omega)
      · exact b64c_mem _ (by omega)
    | [a, b] =>
      have ha : a < 256 := hbound a (by simp)
      have hb : b < 256 := hbound b (by simp)
      refine ⟨[b64c (a / 4), b64c (a % 4 * 16 + b / 16), b64c (b % 16 * 4)], 1, rfl,
        by omega, by simp, ?_, by simp⟩
      intro c hc
      simp only [List.mem_cons, List.not_mem_nil, or_false] at hc
      rcases hc with rfl | rfl | rfl
      · exact b64c_mem _ (by omega)
      · exact b64c_mem _ (by omega)
      · exact b64c_mem _ (by omega)
    | a :: b :: c :: rest =>
      have ha : a < 256 := hbound a (by simp)
      have hb : b < 256 := hbound b (by simp)
      have hc : c < 256 := hbound c (by simp)
      rcases ih rest (by simp at hlen; omega) (fun x hx => hbound x (by simp [hx]))
        with ⟨body, k, heq, hk, hmod, hmem, _⟩
      refine ⟨b64c (a / 4) :: b64c (a % 4 * 16 + b / 16) :: b64c (b % 16 * 4 + c / 64) ::
        b64c (c % 64) :: body, k, ?_, hk, by simp; omega, ?_, by simp⟩
      · show base64EncodeGroups (a :: b :: c :: rest) = _
        unfold base64EncodeGroups
        rw [heq]
        rfl
      · intro x hx
        simp only [List.mem_cons] at hx
        rcases hx with rfl | rfl | rfl | rfl | hx
        · exact b64c_mem _ (by omega)
        · exact b64c_mem _ (by omega)
        · exact b64c_mem _ (by omega)
        · exact b64c_mem _ (by omega)
        · exact hmem x hx

theorem dropWhile_replicate_append (k : Nat) (l : List Char) :
    List.dropWhile (fun c => c = '=') (List.replicate k '=' ++ l) =
      List.dropWhile (fun c => c = '=') l := by
  induction k with
  | zero => rfl
  | succ k ihk => simp [List.replicate_succ, List.dropWhile, ihk]

theorem stripTrailingEq_append_replicate (l : List Char) (k : Nat) :
    stripTrailingEq (l ++ List.replicate k '=') = stripTrailingEq l := by
  unfold stripTrailingEq
  rw [List.reverse_append, List.reverse_replicate, dropWhile_replicate_append]

theorem stripTrailingEq_no_eq (l : List Char) (h : ∀ c ∈ l, c ≠ '=') :
    stripTrailingEq l = l := by
  unfold stripTrailingEq
  rcases hrev : l.reverse with _ | ⟨c, cs⟩
  · simp at hrev
    simp [hrev]
  · have hcmem : c ∈ l := by
      rw [← List.mem_reverse, hrev]
      exact List.mem_cons_self _ _
    rw [List.dropWhile_cons_of_neg (by simpa using h c hcmem)]
    rw [← hrev, List.reverse_reverse]

theorem replaceChar_append (a b : Char) (l1 l2 : List Char) :
    replaceChar a b (l1 ++ l2) = replaceChar a b l1 ++ replaceChar a b l2 := by
  simp [replaceChar]

theorem replaceChar_replicate_eq (a b : Char) (k : Nat) (h : ¬('=' = a)) :
    replaceChar a b (List.replicate k '=') = List.replicate k '=' := by
  simp [replaceChar, List.map_replicate, if_neg h]

theorem urlsafe_roundtrip_chars (l : List Char) (h : ∀ c ∈ l, c ∈ base64Chars) :
    replaceChar '_' '/' (replaceChar '-' '+'
      (replaceChar '/' '_' (replaceChar '+' '-' l))) = l := by
  unfold replaceChar
  rw [List.map_map, List.map_map, List.map_map]
  have key : ∀ c ∈ base64Chars,
      ((fun c => if c = '_' then '/' else c) ∘ (fun c => if c = '-' then '+' else c) ∘
        (fun c => if c = '/' then '_' else c) ∘ (fun c => if c = '+' then '-' else c)) c
        = c := by decide
  conv_rhs => rw [← List.map_id l]
  exact List.map_congr_left (fun c hc => key c (h c hc))

theorem mapped_base64_ne_eq : ∀ c ∈ base64Chars,
    ((fun c => if c = '/' then '_' else c) ((fun c => if c = '+' then '-' else c) c)) ≠ '=' := by
  decide

theorem padEqLoop_pad (l : List Char) (k : Nat) (hk : k ≤ 3)
    (hlen : (l.length + k) % 4 = 0) :
    padEqLoop 4 l = l ++ List.replicate k '=' := by
  have hlen1 : ∀ (m : List Char) (c : Char), (m ++ [c]).length = m.length + 1 := by
    intro m c; simp
  match k, hk with
  | 0, _ =>
    simp only [padEqLoop]
    rw [if_pos (by omega)]
    simp
  | 1, _ =>
    simp only [padEqLoop]
    rw [if_neg (by omega)]
    rw [if_pos (by rw [hlen1]; omega)]
    simp
  | 2, _ =>
    simp only [padEqLoop]
    rw [if_neg (by omega)]
    rw [if_neg (by rw [hlen1]; omega)]
    rw [if_pos (by rw [hlen1, hlen1]; omega)]
    simp
  | 3, _ =>
    simp only [padEqLoop]
    rw [if_neg (by omega)]
    rw [if_neg (by rw [hlen1]; omega)]
    rw [if_neg (by rw [hlen1, hlen1]; omega)]
    rw [if_pos (by rw [hlen1, hlen1, hlen1]; omega)]
    simp

theorem hexVal_hexDigitChar : ∀ m, m < 16 → hexVal (hexDigitChar m) = some m := by decide

theorem parseStringBody_print : ∀ (s : List Char) (rest : List Char),
    parseStringBody ((s.map escapeChar).flatten ++ '"' :: rest) = some (s, rest) := by
  intro s
  induction s with
  | nil =>
    intro rest
    simp only [List.map_nil, List.flatten_nil, List.nil_append]
    unfold parseStringBody
    rw [if_pos rfl]
  | cons c cs ih =>
    intro rest
    simp only [List.map_cons, List.flatten_cons, List.append_assoc]
    by_cases h1 : c = '"'
    · subst h1
      show parseStringBody ('\\' :: '"' :: ((cs.map escapeChar).flatten ++ '"' :: rest))
        = some ('"' :: cs, rest)
      unfold parseStringBody
      rw [if_neg (by decide), if_pos rfl]
      dsimp only
      rw [if_neg (by decide)]
      rw [show unescapeChar '"' = some '"' from rfl, ih rest]
    · by_cases h2 : c = '\\'
      · subst h2
        show parseStringBody ('\\' :: '\\' :: ((cs.map escapeChar).flatten ++ '"' :: rest))
          = some ('\\' :: cs, rest)
        unfold parseStringBody
        rw [if_neg (by decide), if_pos rfl]
        dsimp only
        rw [if_neg (by decide)]
        rw [show unescapeChar '\\' = some '\\' from rfl, ih rest]
      · by_cases h3 : c.toNat < 0x20
        · have hesc : escapeChar c =
              ['\\', 'u', '0', '0', hexDigitChar (c.toNat / 16), hexDigitChar (c.toNat % 16)] := by
            unfold escapeChar
            rw [if_neg h1, if_neg h2, if_pos h3]
          rw [hesc]
          show parseStringBody ('\\' :: 'u' :: '0' :: '0' :: hexDigitChar (c.toNat / 16) ::
            hexDigitChar (c.toNat % 16) :: ((cs.map escapeChar).flatten ++ '"' :: rest))
            = some (c :: cs, rest)
          unfold parseStringBody
          rw [if_neg (by decide), if_pos rfl]
          dsimp only
          rw [if_pos rfl]
          rw [show hexVal '0' = some 0 from rfl]
          rw [hexVal_hexDigitChar _ (by omega), hexVal_hexDigitChar _ (by omega)]
          rw [ih rest]
          dsimp only
          have hv : ((0 * 16 + 0) * 16 + c.toNat / 16) * 16 + c.toNat % 16 = c.toNat := by
            omega
          rw [hv, Char.ofNat_toNat]
        · have hesc : escapeChar c = [c] := by
            unfold escapeChar
            rw [if_neg h1, if_neg h2, if_neg h3]
          rw [hesc]
          show parseStringBody (c :: ((cs.map escapeChar).flatten ++ '"' :: rest))
            = some (c :: cs, rest)
          unfold parseStringBody
          rw [if_neg h1, if_neg h2, ih rest]

theorem parseString_print (s : String) (rest : List Char) :
    parseString (jsonQuote s ++ rest) = some (s.data, rest) := by
  unfold jsonQuote
  simp only [List.cons_append, List.append_assoc, List.singleton_append]
  show parseStringBody ((s.data.map escapeChar).flatten ++ '"' :: rest) = some (s.data, rest)
  exact parseStringBody_print s.data rest

theorem digitChar_isDigit : ∀ d, d < 10 → isDigitChar (digitChar d) = true := by decide

theorem digitChar_toNat : ∀ d, d < 10 → (digitChar d).toNat = 48 + d := by decide

theorem natDigits_all_digits : ∀ fuel n c, c ∈ natDigits fuel n → isDigitChar c = true := by
  intro fuel
  induction fuel with
  | zero => intro n c hc; simp [natDigits] at hc
  | succ f ih =>
    intro n c hc
    unfold natDigits at hc
    split at hc
    · next h =>
      simp only [List.mem_singleton] at hc
      exact hc ▸ digitChar_isDigit n h
    · rcases List.mem_append.mp hc with hc | hc
      · exact ih _ c hc
      · simp only [List.mem_singleton] at hc
        exact hc ▸ digitChar_isDigit _ (Nat.mod_lt _ (by omega))

theorem natDigits_ne_nil : ∀ fuel n, natDigits (fuel + 1) n ≠ [] := by
  intro fuel n
  unfold natDigits
  split <;> simp

theorem natDigits_foldl : ∀ n fuel acc, n ≤ fuel →
    (natDigits (fuel + 1) n).foldl (fun a c => a * 10 + (c.toNat - 48)) acc =
      acc * 10 ^ (natDigits (fuel + 1) n).length + n := by
  intro n
  induction n using Nat.strong_induction_on with
  | _ n ihn =>
    intro fuel acc hle
    by_cases h : n < 10
    · unfold natDigits
      rw [if_pos h]
      simp [digitChar_toNat n h]
    · rcases fuel with _ | f
      · omega
      show (natDigits (f + 1 + 1) n).foldl _ acc = _
      unfold natDigits
      rw [if_neg h]
      rw [List.foldl_append]
      have hdiv : n / 10 < n := Nat.div_lt_self (by omega) (by omega)
      have hdivle : n / 10 ≤ f := by omega
      rw [ihn (n / 10) hdiv f acc hdivle]
      simp only [List.foldl_cons, List.foldl_nil, List.length_append, List.length_cons,
        List.length_nil]
      rw [digitChar_toNat _ (Nat.mod_lt _ (by omega))]
      have : 48 + n % 10 - 48 = n % 10 := by omega
      rw [this]
      rw [pow_succ]
      have hmod := Nat.div_add_mod n 10
      ring_nf
      omega

theorem takeWhile_append_of (p : Char → Bool) : ∀ (l1 l2 : List Char),
    (∀ c ∈ l1, p c = true) → (∀ c, l2.head? = some c → p c = false) →
    (l1 ++ l2).takeWhile p = l1 := by
  intro l1
  induction l1 with
  | nil =>
    intro l2 _ h2
    rcases l2 with _ | ⟨c, cs⟩
    · rfl
    · simp [List.takeWhile_cons, h2 c rfl]
  | cons c cs ih =>
    intro l2 h1 h2
    simp only [List.cons_append, List.takeWhile_cons, h1 c (List.mem_cons_self _ _), if_true]
    rw [ih l2 (fun x hx => h1 x (List.mem_cons_of_mem _ hx)) h2]

theorem parseNat_print (n : Nat) (rest : List Char)
    (hrest : ∀ c, rest.head? = some c → isDigitChar c = false) :
    parseNat (natDigits (n + 1) n ++ rest) = some (n, rest) := by
  unfold parseNat
  have htake : (natDigits (n + 1) n ++ rest).takeWhile isDigitChar = natDigits (n + 1) n :=
    takeWhile_append_of isDigitChar _ rest (fun c hc => natDigits_all_digits _ _ c hc) hrest
  rw [htake]
  rw [if_neg (by simpa using natDigits_ne_nil n n)]
  rw [natDigits_foldl n n 0 (le_refl n)]
  rw [List.drop_left]
  simp

theorem parseNatListBody_print : ∀ (ns : List Nat) (n : Nat) (fuel : Nat) (rest : List Char),
    ns.length + 1 ≤ fuel →
    parseNatListBody fuel
      (joinComma ((n :: ns).map (fun m => natDigits (m + 1) m)) ++ ']' :: rest)
      = some (n :: ns, rest) := by
  intro ns
  induction ns with
  | nil =>
    intro n fuel rest hfuel
    rcases fuel with _ | f
    · omega
    show parseNatListBody (f + 1) (natDigits (n + 1) n ++ ']' :: rest) = some ([n], rest)
    unfold parseNatListBody
    rw [parseNat_print n (']' :: rest) (by intro c hc; simp at hc; rw [← hc]; decide)]
    dsimp only
    rw [if_pos rfl]
  | cons m ms ih =>
    intro n fuel rest hfuel
    rcases fuel with _ | f
    · simp at hfuel
    have hjoin : joinComma ((n :: m :: ms).map (fun k => natDigits (k + 1) k))
        = natDigits (n + 1) n ++ ',' :: joinComma ((m :: ms).map (fun k => natDigits (k + 1) k)) := by
      rfl
    rw [hjoin]
    unfold parseNatListBody
    rw [List.append_assoc]
    rw [parseNat_print n _ (by intro c hc; simp at hc; rw [← hc]; decide)]
    simp only [List.cons_append, if_true]
    rw [ih m f rest (by simp at hfuel ⊢; omega)]
    rw [if_neg (by decide)]

theorem strMk_data (s : String) : (⟨s.data⟩ : String) = s := rfl

theorem natDigits_head_digit (n : Nat) :
    ∀ c, (natDigits (n + 1) n).head? = some c → isDigitChar c = true := by
  intro c hc
  have hne := natDigits_ne_nil n n
  rcases hh : natDigits (n + 1) n with _ | ⟨d, ds⟩
  · exact absurd hh hne
  · rw [hh] at hc
    simp at hc
    exact hc ▸ natDigits_all_digits (n + 1) n d (by rw [hh]; exact List.mem_cons_self _ _)

theorem joinComma_digits_length : ∀ (ns : List Nat) (n : Nat),
    ns.length + 1 ≤ (joinComma ((n :: ns).map (fun m => natDigits (m + 1) m))).length := by
  intro ns
  induction ns with
  | nil =>
    intro n
    have := natDigits_ne_nil n n
    simp [joinComma]
    rcases hh : natDigits (n + 1) n with _ | ⟨d, ds⟩
    · exact absurd hh this
    · simp
  | cons m ms ih =>
    intro n
    show ms.length + 1 + 1 ≤ (natDigits (n + 1) n ++
      ',' :: joinComma ((m :: ms).map (fun k => natDigits (k + 1) k))).length
    rw [List.length_append]
    have h2 := ih m
    simp only [List.length_cons]
    omega

theorem parseNatList_print (l : List Nat) (rest : List Char) :
    parseNatList (jsonNatList l ++ rest) = some (l, rest) := by
  rcases l with _ | ⟨n, ns⟩
  · show parseNatList ('[' :: ']' :: rest) = some ([], rest)
    show (if ('[' : Char) = '[' then
        (if (']' : Char) = ']' then some (([] : List Nat), rest)
          else parseNatListBody ((']' :: rest).length) (']' :: rest))
      else none) = some ([], rest)
    rw [if_pos rfl, if_pos rfl]
  · have hjoin : ∃ d ds, joinComma ((n :: ns).map (fun m => natDigits (m + 1) m)) = d :: ds ∧
        isDigitChar d = true := by
      rcases ns with _ | ⟨m, ms⟩
      · rcases hh : natDigits (n + 1) n with _ | ⟨d, ds⟩
        · exact absurd hh (natDigits_ne_nil n n)
        · exact ⟨d, ds, by simp [joinComma, hh], natDigits_head_digit n d (by rw [hh]; rfl)⟩
      · rcases hh : natDigits (n + 1) n with _ | ⟨d, ds⟩
        · exact absurd hh (natDigits_ne_nil n n)
        · refine ⟨d, ds ++ ',' :: joinComma ((m :: ms).map (fun k => natDigits (k + 1) k)), ?_,
            natDigits_head_digit n d (by rw [hh]; rfl)⟩
          show natDigits (n + 1) n ++ ',' :: _ = _
          rw [hh]
          rfl
    rcases hjoin with ⟨d, ds, hj, hd⟩
    have hshape : jsonNatList (n :: ns) ++ rest = '[' :: d :: (ds ++ ']' :: rest) := by
      unfold jsonNatList
      rw [hj]
      simp
    rw [hshape]
    show (if ('[' : Char) = '[' then
        (if d = ']' then some (([] : List Nat), ds ++ ']' :: rest)
          else parseNatListBody ((d :: (ds ++ ']' :: rest)).length) (d :: (ds ++ ']' :: rest)))
      else none) = some (n :: ns, rest)
    rw [if_pos rfl]
    rw [if_neg (by intro h; rw [h] at hd; exact absurd hd (by decide))]
    have hback : d :: (ds ++ ']' :: rest) =
        joinComma ((n :: ns).map (fun m => natDigits (m + 1) m)) ++ ']' :: rest := by
      rw [hj]
      rfl
    rw [hback]
    refine parseNatListBody_print ns n _ rest ?_
    have hlen := joinComma_digits_length ns n
    simp only [List.length_cons, List.length_append] at hlen ⊢
    omega

theorem parsePair_print (ctx : StreamContext) (fld : CtxField) (rest : List Char)
    (hrest : ∀ c, rest.head? = some c → isDigitChar c = false) :
    parsePair ctx (printCtxField fld ++ rest) = some (applyCtxField ctx fld, rest) := by
  cases fld with
  | typ s =>
    show parsePair ctx ((jsonQuote "type" ++ ':' :: jsonQuote s) ++ rest) = _
    rw [List.append_assoc, List.cons_append]
    unfold parsePair
    rw [parseString_print "type" (':' :: (jsonQuote s ++ rest))]
    dsimp only
    rw [if_pos rfl, if_pos rfl]
    rw [parseString_print s rest]
    rfl
  | episodeTitle s =>
    show parsePair ctx ((jsonQuote "episodeTitle" ++ ':' :: jsonQuote s) ++ rest) = _
    rw [List.append_assoc, List.cons_append]
    unfold parsePair
    rw [parseString_print "episodeTitle" (':' :: (jsonQuote s ++ rest))]
    dsimp only
    rw [if_pos rfl]
    rw [if_neg (by decide), if_neg (by decide), if_neg (by decide), if_pos rfl]
    rw [parseString_print s rest]
    rfl
  | title s =>
    show parsePair ctx ((jsonQuote "title" ++ ':' :: jsonQuote s) ++ rest) = _
    rw [List.append_assoc, List.cons_append]
    unfold parsePair
    rw [parseString_print "title" (':' :: (jsonQuote s ++ rest))]
    dsimp only
    rw [if_pos rfl]
    rw [if_neg (by decide), if_neg (by decide), if_neg (by decide), if_neg (by decide),
      if_pos rfl]
    rw [parseString_print s rest]
    rfl
  | season n =>
    show parsePair ctx ((jsonQuote "season" ++ ':' :: natDigits (n + 1) n) ++ rest) = _
    rw [List.append_assoc, List.cons_append]
    unfold parsePair
    rw [parseString_print "season" (':' :: (natDigits (n + 1) n ++ rest))]
    dsimp only
    rw [if_pos rfl]
    rw [if_neg (by decide), if_pos rfl]
    rw [parseNat_print n rest hrest]
    rfl
  | episode n =>
    show parsePair ctx ((jsonQuote "episode" ++ ':' :: natDigits (n + 1) n) ++ rest) = _
    rw [List.append_assoc, List.cons_append]
    unfold parsePair
    rw [parseString_print "episode" (':' :: (natDigits (n + 1) n ++ rest))]
    dsimp only
    rw [if_pos rfl]
    rw [if_neg (by decide), if_neg (by decide), if_pos rfl]
    rw [parseNat_print n rest hrest]
    rfl
  | year n =>
    show parsePair ctx ((jsonQuote "year" ++ ':' :: natDigits (n + 1) n) ++ rest) = _
    rw [List.append_assoc, List.cons_append]
    unfold parsePair
    rw [parseString_print "year" (':' :: (natDigits (n + 1) n ++ rest))]
    dsimp only
    rw [if_pos rfl]
    rw [if_neg (by decide), if_neg (by decide), if_neg (by decide), if_neg (by decide),
      if_neg (by decide), if_pos rfl]
    rw [parseNat_print n rest hrest]
    rfl
  | episodeList l =>
    show parsePair ctx ((jsonQuote "episodeList" ++ ':' :: jsonNatList l) ++ rest) = _
    rw [List.append_assoc, List.cons_append]
    unfold parsePair
    rw [parseString_print "episodeList" (':' :: (jsonNatList l ++ rest))]
    dsimp only
    rw [if_pos rfl]
    rw [if_neg (by decide), if_neg (by decide), if_neg (by decide), if_neg (by decide),
      if_neg (by decide), if_neg (by decide), if_pos rfl]
    rw [parseNatList_print l rest]
    rfl

theorem printCtxField_ne_nil (fld : CtxField) : printCtxField fld ≠ [] := by
  cases fld <;> simp [printCtxField, jsonQuote]

theorem parsePairs_print : ∀ (flds : List CtxField) (f1 : CtxField) (fuel : Nat)
    (ctx : StreamContext), flds.length + 1 ≤ fuel →
    parsePairs fuel ctx (joinComma ((f1 :: flds).map printCtxField) ++ ['}'])
      = some ((f1 :: flds).foldl applyCtxField ctx, ['}']) := by
  intro flds
  induction flds with
  | nil =>
    intro f1 fuel ctx hfuel
    rcases fuel with _ | f
    · omega
    show parsePairs (f + 1) ctx (printCtxField f1 ++ ['}']) = _
    unfold parsePairs
    rw [parsePair_print ctx f1 ['}'] (by intro c hc; simp at hc; rw [← hc]; decide)]
    dsimp only
    rw [if_neg (by decide)]
    rfl
  | cons f2 fs ih =>
    intro f1 fuel ctx hfuel
    rcases fuel with _ | f
    · simp at hfuel
    have hjoin : joinComma ((f1 :: f2 :: fs).map printCtxField)
        = printCtxField f1 ++ ',' :: joinComma ((f2 :: fs).map printCtxField) := rfl
    rw [hjoin]
    unfold parsePairs
    rw [List.append_assoc, List.cons_append]
    rw [parsePair_print ctx f1 _ (by intro c hc; simp at hc; rw [← hc]; decide)]
    dsimp only
    rw [if_pos rfl]
    rw [ih f2 f (applyCtxField ctx f1) (by simp at hfuel ⊢; omega)]
    rfl

theorem contextFieldList_foldl (c : StreamContext) :
    (contextFieldList c).foldl applyCtxField {} = c := by
  rcases c with ⟨t, s, e, et, ti, y, el⟩
  rcases t <;> rcases s <;> rcases e <;> rcases et <;> rcases ti <;> rcases y <;> rcases el <;>
    rfl

theorem contextFieldList_nil_eq (c : StreamContext) (h : contextFieldList c = []) :
    c = {} := by
  have := contextFieldList_foldl c
  rw [h] at this
  simpa using this.symm

theorem jsonParseContext_print (c : StreamContext) :
    jsonParseContext (jsonStringifyContext c) = some c := by
  unfold jsonParseContext jsonStringifyContext
  rcases hF : contextFieldList c with _ | ⟨f1, fs⟩
  · show (if ('{' : Char) = '{' then
        if joinComma (([] : List CtxField).map printCtxField) ++ ['}'] = ['}'] then
          some ({} : StreamContext)
        else _
      else none) = some c
    rw [if_pos rfl, if_pos (by rfl)]
    rw [contextFieldList_nil_eq c hF]
  · have hne : joinComma ((f1 :: fs).map printCtxField) ≠ [] := by
      rcases fs with _ | ⟨f2, fs2⟩
      · exact printCtxField_ne_nil f1
      · show printCtxField f1 ++ ',' :: _ ≠ []
        simp [printCtxField_ne_nil f1]
    show (if ('{' : Char) = '{' then
        if joinComma ((f1 :: fs).map printCtxField) ++ ['}'] = ['}'] then
          some ({} : StreamContext)
        else
          match parsePairs (joinComma ((f1 :: fs).map printCtxField) ++ ['}']).length {}
              (joinComma ((f1 :: fs).map printCtxField) ++ ['}']) with
          | some (ctx, r) => if r = ['}'] then some ctx else none
          | none => none
      else none) = some c
    rw [if_pos rfl]
    rw [if_neg (by
      intro h
      have hlen := congrArg List.length h
      rcases List.exists_cons_of_ne_nil hne with ⟨x, xs, hx⟩
      rw [hx] at hlen
      simp at hlen)]
    have hfuel : fs.length + 1 ≤ (joinComma ((f1 :: fs).map printCtxField) ++ ['}']).length := by
      have : ∀ (gs : List CtxField) (g : CtxField),
          gs.length + 1 ≤ (joinComma ((g :: gs).map printCtxField)).length := by
        intro gs
        induction gs with
        | nil =>
          intro g
          rcases List.exists_cons_of_ne_nil (printCtxField_ne_nil g) with ⟨x, xs, hx⟩
          show 0 + 1 ≤ (joinComma [printCtxField g]).length
          simp [joinComma, hx]
        | cons g2 gs2 ih2 =>
          intro g
          show gs2.length + 1 + 1 ≤ (printCtxField g ++ ',' :: joinComma ((g2 :: gs2).map printCtxField)).length
          have h2 := ih2 g2
          simp only [List.length_append, List.length_cons]
          omega
      have h3 := this fs f1
      simp only [List.length_append, List.length_cons, List.length_nil]
      omega
    rw [parsePairs_print fs f1 _ {} hfuel]
    dsimp only
    rw [if_pos rfl]
    rw [show (f1 :: fs).foldl applyCtxField {} = c from by rw [← hF]; exact contextFieldList_foldl c]

theorem isEmpty_false_of_data_ne_nil (s : String) (h : s.data ≠ []) : s.isEmpty = false := by
  rcases hb : s.isEmpty with _ | _
  · rfl
  · exact absurd (congrArg String.data ((String.isEmpty_iff s).mp hb)) h

theorem utf8EncodeChar_lt_256 (c : Char) : ∀ b ∈ utf8EncodeChar c, b < 256 := by
  have := char_toNat_lt c
  simp only [utf8EncodeChar]
  split_ifs with h1 h2 h3 <;> intro b hb <;> simp at hb <;> omega

theorem utf8Encode_lt_256 (s : String) : ∀ b ∈ utf8Encode s, b < 256 := by
  intro b hb
  unfold utf8Encode at hb
  rcases List.mem_flatten.mp hb with ⟨l, hl, hbl⟩
  rcases List.mem_map.mp hl with ⟨c, _, rfl⟩
  exact utf8EncodeChar_lt_256 c b hbl

theorem utf8Encode_ne_nil (s : String) (h : s.data ≠ []) : utf8Encode s ≠ [] := by
  unfold utf8Encode
  rcases hd : s.data with _ | ⟨c, cs⟩
  · exact absurd hd h
  · simp only [List.map_cons, List.flatten_cons]
    intro habs
    rcases List.append_eq_nil.mp habs with ⟨h1, _⟩
    exact utf8EncodeChar_ne_nil c h1

/-- C2: for every `StreamContext` with any subset of its optional fields
populated (including none), decoding the encoded context yields the original
context, and a missing encoded input yields "no context" rather than an
error (every failing branch of `decodeStreamContext` returns `none` by
construction). -/
theorem claim_C2_context_roundtrip :
    (∀ c : StreamContext, decodeStreamContext (encodeStreamContext (some c)) = some c) ∧
      decodeStreamContext none = none := by
  refine ⟨fun c => ?_, rfl⟩
  have hjdata : (jsonStringifyContext c).data =
      '{' :: joinComma ((contextFieldList c).map printCtxField) ++ ['}'] := rfl
  have hjne : (jsonStringifyContext c).data ≠ [] := by rw [hjdata]; simp
  have hjempty : (jsonStringifyContext c).isEmpty = false :=
    isEmpty_false_of_data_ne_nil _ hjne
  have hb256 : ∀ x ∈ utf8Encode (jsonStringifyContext c), x < 256 := utf8Encode_lt_256 _
  have hbne : utf8Encode (jsonStringifyContext c) ≠ [] := utf8Encode_ne_nil _ hjne
  rcases base64EncodeGroups_shape (utf8Encode (jsonStringifyContext c)).length
      (utf8Encode (jsonStringifyContext c)) (le_refl _) hb256 with
    ⟨body, k, hE, hk, hmod, hmemb, hbody_ne⟩
  have hbody := hbody_ne hbne
  -- the stripped URL-safe text
  have hmapped :
      replaceChar '/' '_' (replaceChar '+' '-'
        (base64EncodeGroups (utf8Encode (jsonStringifyContext c))))
      = replaceChar '/' '_' (replaceChar '+' '-' body) ++ List.replicate k '=' := by
    rw [hE, replaceChar_append, replaceChar_append,
      replaceChar_replicate_eq '+' '-' k (by decide),
      replaceChar_replicate_eq '/' '_' k (by decide)]
  have hstrip :
      stripTrailingEq (replaceChar '/' '_' (replaceChar '+' '-'
        (base64EncodeGroups (utf8Encode (jsonStringifyContext c)))))
      = replaceChar '/' '_' (replaceChar '+' '-' body) := by
    rw [hmapped, stripTrailingEq_append_replicate]
    refine stripTrailingEq_no_eq _ ?_
    intro x hx
    unfold replaceChar at hx
    rw [List.map_map] at hx
    rcases List.mem_map.mp hx with ⟨y, hy, rfl⟩
    exact mapped_base64_ne_eq y (hmemb y hy)
  have hencode : encodeStreamContext (some c) =
      some ⟨replaceChar '/' '_' (replaceChar '+' '-' body)⟩ := by
    unfold encodeStreamContext
    dsimp only
    rw [hjempty]
    simp only [Bool.false_eq_true, if_false]
    rw [show (base64Encode (utf8Encode (jsonStringifyContext c))).data
      = base64EncodeGroups (utf8Encode (jsonStringifyContext c)) from rfl]
    rw [hstrip]
  rw [hencode]
  -- decoding
  have hsne : (replaceChar '/' '_' (replaceChar '+' '-' body)) ≠ [] := by
    unfold replaceChar
    simp [hbody]
  unfold decodeStreamContext
  dsimp only
  rw [isEmpty_false_of_data_ne_nil ⟨replaceChar '/' '_' (replaceChar '+' '-' body)⟩ hsne]
  simp only [Bool.false_eq_true, if_false]
  show (match base64DecodeGroups (padEqLoop 4 (replaceChar '_' '/' (replaceChar '-' '+'
      (replaceChar '/' '_' (replaceChar '+' '-' body))))) with
    | none => none
    | some bytes =>
      match utf8Decode bytes with
      | none => none
      | some json => if json.isEmpty then none else jsonParseContext json) = some c
  rw [urlsafe_roundtrip_chars body hmemb]
  rw [padEqLoop_pad body k (by omega) hmod]
  rw [← hE]
  rw [base64DecodeGroups_encode (utf8Encode (jsonStringifyContext c)).length _ (le_refl _) hb256]
  dsimp only
  rw [utf8Decode_encode]
  dsimp only
  rw [hjempty]
  simp only [Bool.false_eq_true, if_false]
  rw [jsonParseContext_print c]

theorem char_toNat_ofNat_valid (n : Nat) (h : n.isValidChar) : (Char.ofNat n).toNat = n := by
  unfold Char.ofNat
  rw [dif_pos h]
  unfold Char.ofNatAux Char.toNat
  simp [UInt32.toNat]

theorem toLower_eq_m (c : Char) (h : c.toLower = 'm') : c = 'm' ∨ c = 'M' := by
  unfold Char.toLower at h
  simp only [ge_iff_le] at h
  split_ifs at h with hc
  · right
    have hval : (Char.ofNat (c.toNat + 32)).toNat = c.toNat + 32 :=
      char_toNat_ofNat_valid _ (Or.inl (by omega))
    have h77 : c.toNat = 77 := by
      have := congrArg Char.toNat h
      rw [hval] at this
      simpa using this
    have := congrArg Char.ofNat h77
    rw [Char.ofNat_toNat] at this
    rw [this]
  · left; exact h

theorem dropWhile_append_singleton_ne_nil (p : Char → Bool) (c : Char) (hc : p c = false) :
    ∀ l : List Char, (l ++ [c]).dropWhile p ≠ [] := by
  intro l
  induction l with
  | nil => simp [List.dropWhile, hc]
  | cons x xs ih =>
    by_cases hx : p x = true
    · simpa [List.dropWhile, hx] using ih
    · simp [List.dropWhile, hx]

theorem strTrim_ne_empty (mg : String) (c : Char) (cs : List Char)
    (hdata : mg.data = c :: cs) (hc : isJsWhitespace c = false) :
    (strTrim mg).isEmpty = false := by
  apply isEmpty_false_of_data_ne_nil
  show (((mg.data.dropWhile isJsWhitespace).reverse.dropWhile isJsWhitespace).reverse) ≠ []
  rw [hdata]
  rw [List.dropWhile_cons_of_neg (by simp [hc])]
  rw [show (c :: cs).reverse = cs.reverse ++ [c] by simp]
  intro habs
  simp only [List.reverse_eq_nil_iff] at habs
  exact dropWhile_append_singleton_ne_nil isJsWhitespace c hc cs.reverse habs

theorem extractStreamMagnet_head (s : SourceStream) (mg : String)
    (h : extractStreamMagnet s = some mg) :
    ∃ c cs, mg.data = c :: cs ∧ (c = 'm' ∨ c = 'M') := by
  unfold extractStreamMagnet at h
  split_ifs at h with h1 h2 h3
  · rcases Bool.and_eq_true _ _ |>.mp h1 with ⟨ht, hsw⟩
    have hmg : s.magnet.getD "" = mg := by
      rcases hsm : s.magnet with _ | m
      · rw [hsm] at h
        exact absurd h (by simp)
      · rw [hsm] at h
        simp at h
        simp [h]
    rw [hmg] at hsw
    rcases of_decide_eq_true hsw with ⟨t, hpre⟩
    have hpre2 : "magnet:".data ++ t = mg.data.map Char.toLower := hpre
    rcases hd : mg.data with _ | ⟨c, cs⟩
    · rw [hd] at hpre2
      simp at hpre2
    · refine ⟨c, cs, rfl, ?_⟩
      rw [hd] at hpre2
      simp only [List.map_cons] at hpre2
      have hm : c.toLower = 'm' := by
        have := congrArg List.head? hpre2
        simpa using this.symm
      exact toLower_eq_m c hm
  · rcases Bool.and_eq_true _ _ |>.mp h2 with ⟨ht, hsw⟩
    have hmg : s.url.getD "" = mg := by
      rcases hsu : s.url with _ | m
      · rw [hsu] at h
        exact absurd h (by simp)
      · rw [hsu] at h
        simp at h
        simp [h]
    rw [hmg] at hsw
    rcases of_decide_eq_true hsw with ⟨t, hpre⟩
    have hpre2 : "magnet:".data ++ t = mg.data.map Char.toLower := hpre
    rcases hd : mg.data with _ | ⟨c, cs⟩
    · rw [hd] at hpre2
      simp at hpre2
    · refine ⟨c, cs, rfl, ?_⟩
      rw [hd] at hpre2
      simp only [List.map_cons] at hpre2
      have hm : c.toLower = 'm' := by
        have := congrArg List.head? hpre2
        simpa using this.symm
      exact toLower_eq_m c hm
  · simp only [Option.some.injEq] at h
    refine ⟨'m', "agnet:?xt=urn:btih:".data ++ (s.infoHash.getD "").data, ?_, Or.inl rfl⟩
    rw [← h]
    rfl

theorem createStreamMetadata_noFallback (s : SourceStream) (mg : String)
    (opts : StreamMetadataOptions) (hfb : opts.fallbackUrl = none)
    (hmg : mg.isEmpty = false) (htrim : (strTrim mg).isEmpty = false) :
    (createStreamMetadata s (some mg) (some opts)).url = mg ∧
    (createStreamMetadata s (some mg) (some opts)).behaviorHints.fallbackMagnet =
      (if truthy (jsOr s.magnet s.url) &&
          strStartsWith ((jsOr s.magnet s.url).getD "") "magnet:" then
        jsOr s.magnet s.url
      else none) := by
  unfold createStreamMetadata
  dsimp only
  simp only [Option.some_bind, hfb]
  have hfb2 : jsOr (jsOr none s.magnet) s.url = jsOr s.magnet s.url := by
    simp [jsOr, truthy]
  rw [hfb2]
  have hurl : (if truthy (some mg) && !(strTrim ((some mg).getD "")).isEmpty then
      (some mg).getD ""
    else (jsOr (jsOr s.magnet s.url) (some "")).getD "") = mg := by
    rw [if_pos]
    · rfl
    · simp [truthy, hmg, htrim]
  rw [hurl]
  exact ⟨rfl, rfl⟩

theorem lowerStr_startsWith_magnet (m : String)
    (h : strStartsWith m "magnet:" = true) :
    strStartsWith (lowerStr m) "magnet:" = true := by
  rcases of_decide_eq_true h with ⟨t, ht⟩
  apply decide_eq_true
  refine ⟨t.map Char.toLower, ?_⟩
  show "magnet:".data ++ t.map Char.toLower = m.data.map Char.toLower
  rw [← ht]
  rw [List.map_append]
  congr 1

theorem jsOr_magnet_eq (s : SourceStream) (mg : String)
    (hext : extractStreamMagnet s = some mg)
    (ht : truthy (jsOr s.magnet s.url) = true)
    (hsw : strStartsWith ((jsOr s.magnet s.url).getD "") "magnet:" = true) :
    jsOr s.magnet s.url = some mg := by
  unfold jsOr at ht hsw ⊢
  by_cases hm : truthy s.magnet = true
  · rw [if_pos hm] at ht hsw ⊢
    unfold extractStreamMagnet at hext
    rw [if_pos (by
      rw [Bool.and_eq_true]
      exact ⟨hm, lowerStr_startsWith_magnet _ hsw⟩)] at hext
    exact hext
  · rw [if_neg hm] at ht hsw ⊢
    unfold extractStreamMagnet at hext
    rw [if_neg (by
      rw [Bool.and_eq_true]
      rintro ⟨hm2, _⟩
      exact hm hm2)] at hext
    rw [if_pos (by
      rw [Bool.and_eq_true]
      exact ⟨ht, lowerStr_startsWith_magnet _ hsw⟩)] at hext
    exact hext

/-- C8 (amended): with no credential, every emitted stream's URL equals the
magnet extracted from its own candidate, and the fallback-magnet hint, when
attached, equals that same magnet; the hint is attached exactly when the
candidate's own `magnet`/`url` field (first truthy) is a lower-case
`magnet:`-prefixed string — a candidate resolvable only through its bare info
hash (or an upper-case `MAGNET:` prefix) gets no hint. -/
theorem claim_C8_no_token (resolveBaseUrl : String) (sourceStreams : List SourceStream)
    (extra : Option TokenExtra) (envToken : Option String)
    (htok : extractRealDebridToken {} {} extra
      (if truthy envToken then some { token := envToken } else none) = none) :
    ∀ m ∈ (handleStreamRequest resolveBaseUrl sourceStreams extra envToken).streams,
      ∃ s ∈ sourceStreams, ∃ mg, extractStreamMagnet s = some mg ∧ m.url = mg ∧
        (∀ x, m.behaviorHints.fallbackMagnet = some x → x = mg) ∧
        (m.behaviorHints.fallbackMagnet = none ↔
          ¬(truthy (jsOr s.magnet s.url) = true ∧
            strStartsWith ((jsOr s.magnet s.url).getD "") "magnet:" = true)) := by
  intro m hm
  unfold handleStreamRequest at hm
  dsimp only at hm
  rw [htok] at hm
  split at hm
  · simp at hm
  · have hmem : m ∈ (sourceStreams.filter processableStream).filterMap (fun s =>
        match extractStreamMagnet s with
        | none => none
        | some magnet =>
          some (createStreamMetadata s (some magnet)
            (some { forceNotWebReady := some true,
                    realDebridReady := some (s.cached.getD false) }))) := by
      rcases List.mem_append.mp hm with h | h
      · exact (List.mem_filter.mp h).1
      · exact (List.mem_filter.mp h).1
    rcases List.mem_filterMap.mp hmem with ⟨s, hs, hf⟩
    have hsrc : s ∈ sourceStreams := (List.mem_filter.mp hs).1
    rcases hext : extractStreamMagnet s with _ | mg
    · rw [hext] at hf
      simp at hf
    · rw [hext] at hf
      simp only [Option.some.injEq] at hf
      rcases extractStreamMagnet_head s mg hext with ⟨c, cs, hdata, hc⟩
      have hmgne : mg.isEmpty = false :=
        isEmpty_false_of_data_ne_nil mg (by rw [hdata]; simp)
      have htrim : (strTrim mg).isEmpty = false :=
        strTrim_ne_empty mg c cs hdata (by rcases hc with rfl | rfl <;> decide)
      rcases createStreamMetadata_noFallback s mg
        { forceNotWebReady := some true, realDebridReady := some (s.cached.getD false) }
        rfl hmgne htrim with ⟨hurl, hhint⟩
      refine ⟨s, hsrc, mg, hext, ?_, ?_, ?_⟩
      · rw [← hf] at *
        exact hurl
      · intro x hx
        rw [← hf] at hx
        rw [hhint] at hx
        split at hx
        · next hcond =>
          rcases Bool.and_eq_true _ _ |>.mp hcond with ⟨ht, hsw⟩
          have := jsOr_magnet_eq s mg hext ht hsw
          rw [this] at hx
          simp at hx
          exact hx.symm
        · simp at hx
      · rw [← hf]
        rw [hhint]
        constructor
        · intro hnone
          rintro ⟨ht, hsw⟩
          rw [if_pos (by rw [Bool.and_eq_true]; exact ⟨ht, hsw⟩)] at hnone
          have := jsOr_magnet_eq s mg hext ht hsw
          rw [this] at hnone
          simp at hnone
        · intro hneg
          rw [if_neg (by
            intro hcond
            rcases Bool.and_eq_true _ _ |>.mp hcond with ⟨ht, hsw⟩
            exact hneg ⟨ht, hsw⟩)]

/-- C8 (counterexample): with no credential and a candidate carrying only an
info hash, the emitted stream's URL is the synthesized magnet but no
fallback-magnet hint is attached, contradicting the claim that a hint equal
to the magnet accompanies every stream. -/
theorem claim_C8_counterexample :
    (handleStreamRequest "http://host" [{ infoHash := some "abc123" }] none none).streams.map
      (fun m => (m.url, m.behaviorHints.fallbackMagnet))
      = [("magnet:?xt=urn:btih:abc123", none)] := by decide

/-- Witness for C8 at the info-hash-only candidate. -/
theorem claim_C8_no_token_witness :
    ∃ s ∈ [({ infoHash := some "abc123" } : SourceStream)], ∃ mg,
      extractStreamMagnet s = some mg ∧
      (createStreamMetadata { infoHash := some "abc123" }
        (some "magnet:?xt=urn:btih:abc123")
        (some { forceNotWebReady := some true, realDebridReady := some false })).url = mg ∧
      (∀ x, (createStreamMetadata { infoHash := some "abc123" }
        (some "magnet:?xt=urn:btih:abc123")
        (some { forceNotWebReady := some true,
                realDebridReady := some false })).behaviorHints.fallbackMagnet = some x →
        x = mg) ∧
      ((createStreamMetadata { infoHash := some "abc123" }
        (some "magnet:?xt=urn:btih:abc123")
        (some { forceNotWebReady := some true,
                realDebridReady := some false })).behaviorHints.fallbackMagnet = none ↔
        ¬(truthy (jsOr s.magnet s.url) = true ∧
          strStartsWith ((jsOr s.magnet s.url).getD "") "magnet:" = true)) :=
  claim_C8_no_token "http://host" [{ infoHash := some "abc123" }] none none (by decide)
    (createStreamMetadata { infoHash := some "abc123" }
      (some "magnet:?xt=urn:btih:abc123")
      (some { forceNotWebReady := some true, realDebridReady := some false }))
    (by decide)

/-- C5: every candidate lacking a magnet, a content hash, and a magnet-form
URL is excluded from the listing output (dropping them changes nothing), and
when no candidate remains the result is the empty list, never an error. -/
theorem claim_C5_unresolvable_excluded (resolveBaseUrl : String)
    (sourceStreams : List SourceStream) (extra : Option TokenExtra)
    (envToken : Option String) :
    handleStreamRequest resolveBaseUrl (sourceStreams.filter processableStream) extra envToken
      = handleStreamRequest resolveBaseUrl sourceStreams extra envToken ∧
    (sourceStreams.filter processableStream = [] →
      handleStreamRequest resolveBaseUrl sourceStreams extra envToken = { streams := [] }) := by
  constructor
  · unfold handleStreamRequest
    rw [List.filter_filter]
    simp only [Bool.and_self]
  · intro h
    unfold handleStreamRequest
    rw [h]
    simp

/-- Witness for C5: a lone candidate with no magnet, hash, or magnet URL
yields the empty stream list. -/
theorem claim_C5_witness :
    handleStreamRequest "http://host" [({ title := some "x" } : SourceStream)] none none
      = { streams := [] } :=
  (claim_C5_unresolvable_excluded "http://host" [{ title := some "x" }] none none).2 (by decide)

/-- No branch of `getDirectDownloadUrl` throws the no-playable-files error. -/
theorem getDirectDownloadUrl_ne_noPlayable (env : RDEnv) (n : Nat) (tid : String) :
    getDirectDownloadUrl env n tid ≠ Except.error PlaybackError.noPlayableFiles := by
  unfold getDirectDownloadUrl
  split
  · simp
  · split
    · simp
    · split
      · simp
      · split <;> simp

/-- The resolution workflow never throws the no-playable-files error: the only
site that could is guarded by the non-empty-files check, under which
`selectBestFile` is total. -/
theorem processMagnet_ne_noPlayable (env : RDEnv) (lg : Nat → ℚ)
    (baseUrl magnet : String) (c : Option StreamContext) :
    processMagnetToDirectUrl env lg baseUrl magnet c ≠
      Except.error PlaybackError.noPlayableFiles := by
  unfold processMagnetToDirectUrl
  split
  · simp
  · split
    · simp
    · split
      · simp
      · rename_i tid h1 ti h2 hfalse
        obtain ⟨r, hr⟩ := selectBestFile_isSome lg ti.files c
          (fun hnil => hfalse (by rw [hnil]; rfl))
        rw [hr]
        dsimp only
        split
        · split
          · simp
          · split
            · exact getDirectDownloadUrl_ne_noPlayable env 2 _
            · split
              · simp
              · split
                · exact getDirectDownloadUrl_ne_noPlayable env 3 _
                · simp
        · simp

/-- **C7.** Whenever the magnet is accepted, the job reports at least one file,
file selection succeeds, and both status inspections succeed but neither
reports `downloaded`, the workflow returns `ok` of the fixed placeholder asset
URL and raises no error. -/
theorem claim_C7_placeholder (env : RDEnv) (lg : Nat → ℚ) (baseUrl magnet : String)
    (ctx : Option StreamContext) (tid : String) (i0 i1 i2 : TorrentInfo)
    (ha : env.addMagnet magnet = some tid)
    (h0 : env.torrentInfo 0 tid = some i0)
    (hfiles : i0.files ≠ [])
    (hsel : ∀ s, env.selectFiles tid s = true)
    (h1 : env.torrentInfo 1 tid = some i1)
    (hs1 : i1.status ≠ "downloaded")
    (h2 : env.torrentInfo 2 tid = some i2)
    (hs2 : i2.status ≠ "downloaded") :
    processMagnetToDirectUrl env lg baseUrl magnet ctx =
      Except.ok (createPlaceholderUrl baseUrl) := by
  have hf0 : i0.files.isEmpty = false := by
    rcases hl : i0.files with _ | _
    · exact absurd hl hfiles
    · rfl
  obtain ⟨f, hf⟩ := selectBestFile_isSome lg i0.files ctx hfiles
  simp [processMagnetToDirectUrl, ha, h0, hf0, hf, hsel, h1, hs1, h2, hs2]

/-- Closed instance of C7: an oracle whose job stays `queued` through both
inspections yields exactly the placeholder URL. -/
theorem claim_C7_witness :
    processMagnetToDirectUrl c7Env (fun n => (n : ℚ)) "http://example.org"
        "magnet:?xt=urn:btih:abc" none =
      Except.ok (createPlaceholderUrl "http://example.org") :=
  claim_C7_placeholder c7Env (fun n => (n : ℚ)) "http://example.org"
    "magnet:?xt=urn:btih:abc" none "t1" ⟨[c7File], "queued", []⟩
    ⟨[c7File], "queued", []⟩ ⟨[c7File], "queued", []⟩
    rfl rfl (by decide) (fun _ => rfl) rfl (by decide) rfl (by decide)

/-- **C10.** On a non-empty file list `selectBestFile` always returns some
file, and consequently no run of the resolution workflow can end in the
no-playable-files error. -/
theorem claim_C10_no_playable_unreachable (lg : Nat → ℚ) (files : List TorrentFile)
    (ctx : Option StreamContext) (hne : files ≠ []) :
    (∃ r, selectBestFile lg files ctx = some r) ∧
    ∀ (env : RDEnv) (baseUrl magnet : String) (c : Option StreamContext),
      processMagnetToDirectUrl env lg baseUrl magnet c ≠
        Except.error PlaybackError.noPlayableFiles :=
  ⟨selectBestFile_isSome lg files ctx hne,
   fun env baseUrl magnet c => processMagnet_ne_noPlayable env lg baseUrl magnet c⟩

/-- Closed instance of C10 at a one-file list. -/
theorem claim_C10_witness :
    ([c7File] : List TorrentFile) ≠ [] ∧
    ((∃ r, selectBestFile (fun n => (n : ℚ)) [c7File] none = some r) ∧
     ∀ (env : RDEnv) (baseUrl magnet : String) (c : Option StreamContext),
       processMagnetToDirectUrl env (fun n => (n : ℚ)) baseUrl magnet c ≠
         Except.error PlaybackError.noPlayableFiles) :=
  ⟨by decide,
   claim_C10_no_playable_unreachable (fun n => (n : ℚ)) [c7File] none (by decide)⟩

/-- Key-sliced characterization of the dedup loop under the cap: when the
retained prefix plus the remaining queue fit inside `MAX_STREAMS`, the
early-return can never drop anything, and for each key the output holds the
already-retained matches followed by the first remaining match if the key is
still unseen. -/
theorem dedupLoop_filter_key (k : String) :
    ∀ (rest : List SourceStream) (seen : List String) (acc : List SourceStream),
      acc.length + rest.length ≤ MAX_STREAMS →
      (dedupLoop seen acc rest).filter (fun s => decide (getDedupeKey s = some k)) =
        acc.filter (fun s => decide (getDedupeKey s = some k)) ++
          (if seen.contains k then []
           else (rest.filter (fun s => decide (getDedupeKey s = some k))).take 1) := by
  intro rest
  induction rest with
  | nil =>
    intro seen acc hcap
    simp [dedupLoop]
  | cons s r ih =>
    intro seen acc hcap
    have hcap' : acc.length + r.length ≤ MAX_STREAMS := by
      simp only [List.length_cons] at hcap; omega
    rcases hk : getDedupeKey s with _ | k'
    · -- keyless candidate: never skipped, never recorded
      simp only [dedupLoop, hk]
      rw [if_neg (by simp)]
      by_cases hfull : MAX_STREAMS ≤ (acc ++ [s]).length
      · have hr : r = [] := by
          simp only [List.length_append, List.length_cons, List.length_nil]
            at hfull hcap
          have : r.length = 0 := by omega
          exact List.length_eq_zero.mp this
        subst hr
        rw [if_pos hfull]
        simp [List.filter_append, List.filter_cons, hk]
      · rw [if_neg hfull]
        rw [ih seen (acc ++ [s]) (by simp only [List.length_append,
          List.length_cons, List.length_nil] at hcap ⊢; omega)]
        simp [List.filter_append, List.filter_cons, hk]
    · by_cases hmem : seen.contains k' = true
      · -- duplicate key: skipped
        simp only [dedupLoop, hk]
        rw [if_pos hmem]
        rw [ih seen acc hcap']
        have hmem' : k ∈ seen ∨ k' ≠ k := by
          by_cases hkk : k' = k
          · exact Or.inl (by subst hkk; simpa using hmem)
          · exact Or.inr hkk
        rcases hmem' with hmem' | hkk
        · simp [List.filter_cons, hmem', hk]
        · simp [List.filter_cons, hk, hkk]
      · -- fresh key: retained and recorded
        have hmem2 : k' ∉ seen := by simpa using hmem
        simp only [dedupLoop, hk]
        rw [if_neg hmem]
        by_cases hfull : MAX_STREAMS ≤ (acc ++ [s]).length
        · have hr : r = [] := by
            simp only [List.length_append, List.length_cons, List.length_nil]
              at hfull hcap
            have : r.length = 0 := by omega
            exact List.length_eq_zero.mp this
          subst hr
          rw [if_pos hfull]
          by_cases hkk : k' = k
          · subst hkk
            simp [List.filter_append, List.filter_cons, hk, hmem2]
          · simp [List.filter_append, List.filter_cons, hk, hkk]
        · rw [if_neg hfull]
          rw [ih (k' :: seen) (acc ++ [s]) (by simp only [List.length_append,
            List.length_cons, List.length_nil] at hcap ⊢; omega)]
          by_cases hkk : k' = k
          · subst hkk
            simp [List.filter_append, List.filter_cons, hk, hmem2,
              List.contains_cons]
          · have hkk2 : ¬k = k' := fun h => hkk h.symm
            simp [List.filter_append, List.filter_cons, hk, hkk, hkk2,
              List.contains_cons]

/-- **C6** (amended). As long as the accepted candidates fit inside the
`MAX_STREAMS` cap, every deduplication key retains exactly its first-seen
candidate and later duplicates are dropped; beyond the cap the claim fails
(see the counterexample). -/
theorem claim_C6_dedup (l : List SourceStream) (hlen : l.length ≤ MAX_STREAMS)
    (key : String) :
    (getStreamsDedup l).filter (fun s => decide (getDedupeKey s = some key)) =
      (l.filter (fun s => decide (getDedupeKey s = some key))).take 1 := by
  have h := dedupLoop_filter_key key l [] [] (by simpa using hlen)
  simpa [getStreamsDedup] using h

/-- **C6** fails as stated: with 61 accepted candidates of pairwise distinct
keys, the group of the 61st key is present in the input but retains zero
candidates, because the loop returns early at `MAX_STREAMS = 60`. -/
theorem claim_C6_counterexample :
    (c6Input.filter (fun s => decide (getDedupeKey s = some "h60"))).length = 1 ∧
    ((getStreamsDedup c6Input).filter
      (fun s => decide (getDedupeKey s = some "h60"))).length = 0 := by
  constructor <;> decide

/-- Closed instance of the amended C6: three candidates, the first and third
sharing key `h0`; exactly the first is retained for that key. -/
theorem claim_C6_witness :
    ([c6Cand 0, c6Cand 1, c6Cand 0].length ≤ MAX_STREAMS) ∧
    ((getStreamsDedup [c6Cand 0, c6Cand 1, c6Cand 0]).filter
        (fun s => decide (getDedupeKey s = some "h0")) =
      ([c6Cand 0, c6Cand 1, c6Cand 0].filter
        (fun s => decide (getDedupeKey s = some "h0"))).take 1) :=
  ⟨by decide, claim_C6_dedup [c6Cand 0, c6Cand 1, c6Cand 0] (by decide) "h0"⟩

theorem toLower_idem (c : Char) : c.toLower.toLower = c.toLower := by
  unfold Char.toLower
  simp only [ge_iff_le]
  split_ifs with h1 h2
  · exfalso
    have hval : (Char.ofNat (c.toNat + 32)).toNat = c.toNat + 32 :=
      char_toNat_ofNat_valid _ (Or.inl (by omega))
    rw [hval] at h2
    omega
  · rfl
  · rfl

theorem lowerStr_idem (s : String) : lowerStr (lowerStr s) = lowerStr s := by
  unfold lowerStr
  refine congrArg String.mk ?_
  show (s.data.map Char.toLower).map Char.toLower = s.data.map Char.toLower
  rw [List.map_map]
  exact List.map_congr_left (fun c _ => toLower_idem c)

theorem mem_normalizeHashes_lower (hashes : List String) (h : String)
    (hm : h ∈ normalizeHashes hashes) : lowerStr h = h := by
  unfold normalizeHashes at hm
  have hm2 := List.mem_of_mem_filter hm
  obtain ⟨a, _, ha⟩ := List.mem_map.mp hm2
  rw [← ha]
  exact lowerStr_idem a

theorem setAdd_mem (l : List String) (y x : String) :
    x ∈ setAdd l y ↔ x ∈ l ∨ x = y := by
  unfold setAdd
  split_ifs with hc
  · constructor
    · exact Or.inl
    · rintro (h | h)
      · exact h
      · subst h; simpa using hc
  · simp

theorem availScanGo_live_fetch (cache : AvailCache) (now : Nat) (tok : Bool) :
    ∀ (hs : List String) (st : List String × List String),
      (∀ h ∈ hs, ∃ e, cacheGet cache h = some e ∧ now < e.expires) →
      (availScanGo cache now tok hs st).2 = st.2 := by
  intro hs
  induction hs with
  | nil => intro st _; rfl
  | cons h rest ih =>
    intro st hlive
    obtain ⟨e, he, hexp⟩ := hlive h (List.mem_cons_self h rest)
    have hrest : ∀ h' ∈ rest, ∃ e, cacheGet cache h' = some e ∧ now < e.expires :=
      fun h' hm => hlive h' (List.mem_cons_of_mem h hm)
    simp only [availScanGo, he]
    rw [if_pos hexp]
    exact ih _ hrest

theorem availScanGo_live_res (cache : AvailCache) (now : Nat) (tok : Bool) :
    ∀ (hs : List String) (st : List String × List String),
      (∀ h ∈ hs, ∃ e, cacheGet cache h = some e ∧ now < e.expires) →
      ∀ x, x ∈ (availScanGo cache now tok hs st).1 ↔
        x ∈ st.1 ∨ (x ∈ hs ∧ ∃ e, cacheGet cache x = some e ∧ e.cached = true ∧
          now < e.expires) := by
  intro hs
  induction hs with
  | nil => intro st _ x; simp [availScanGo]
  | cons h rest ih =>
    intro st hlive x
    obtain ⟨e, he, hexp⟩ := hlive h (List.mem_cons_self h rest)
    have hrest : ∀ h' ∈ rest, ∃ e, cacheGet cache h' = some e ∧ now < e.expires :=
      fun h' hm => hlive h' (List.mem_cons_of_mem h hm)
    simp only [availScanGo, he]
    rw [if_pos hexp]
    rw [ih _ hrest x]
    rcases hc : e.cached with _ | _
    · simp only [Bool.false_eq_true, if_false]
      constructor
      · rintro (hx | hx)
        · exact Or.inl hx
        · exact Or.inr ⟨List.mem_cons_of_mem h hx.1, hx.2⟩
      · rintro (hx | ⟨hx1, e', he', hc', hl'⟩)
        · exact Or.inl hx
        · rcases List.mem_cons.mp hx1 with hx1 | hx1
          · subst hx1
            rw [he] at he'
            cases he'
            rw [hc] at hc'
            exact absurd hc' (by simp)
          · exact Or.inr ⟨hx1, e', he', hc', hl'⟩
    · simp only [if_true]
      rw [setAdd_mem]
      constructor
      · rintro ((hx | hx) | hx)
        · exact Or.inl hx
        · subst hx
          exact Or.inr ⟨List.mem_cons_self x rest, e, he, hc, hexp⟩
        · exact Or.inr ⟨List.mem_cons_of_mem h hx.1, hx.2⟩
      · rintro (hx | ⟨hx1, e', he', hc', hl'⟩)
        · exact Or.inl (Or.inl hx)
        · rcases List.mem_cons.mp hx1 with hx1 | hx1
          · exact Or.inl (Or.inr hx1)
          · exact Or.inr ⟨hx1, e', he', hc', hl'⟩

theorem availScanGo_fetch_stale (cache : AvailCache) (now : Nat) (tok : Bool) :
    ∀ (hs : List String) (st : List String × List String) (x : String),
      x ∈ (availScanGo cache now tok hs st).2 →
      x ∈ st.2 ∨ (x ∈ hs ∧ ∀ e, cacheGet cache x = some e → e.expires ≤ now) := by
  intro hs
  induction hs with
  | nil => intro st x hx; exact Or.inl hx
  | cons h rest ih =>
    intro st x hx
    simp only [availScanGo] at hx
    rcases he : cacheGet cache h with _ | e
    · rw [he] at hx
      dsimp only at hx
      by_cases htok : tok = true
      · rw [if_pos htok] at hx
        rcases ih _ x hx with hx' | hx'
        · rcases List.mem_append.mp hx' with hx' | hx'
          · exact Or.inl hx'
          · have hxh : x = h := by simpa using hx'
            subst hxh
            exact Or.inr ⟨List.mem_cons_self x rest, fun e hget => absurd hget (by rw [he]; simp)⟩
        · exact Or.inr ⟨List.mem_cons_of_mem h hx'.1, hx'.2⟩
      · rw [if_neg htok] at hx
        rcases ih _ x hx with hx' | hx'
        · exact Or.inl hx'
        · exact Or.inr ⟨List.mem_cons_of_mem h hx'.1, hx'.2⟩
    · rw [he] at hx
      dsimp only at hx
      by_cases hexp : now < e.expires
      · rw [if_pos hexp] at hx
        rcases ih _ x hx with hx' | hx'
        · exact Or.inl hx'
        · exact Or.inr ⟨List.mem_cons_of_mem h hx'.1, hx'.2⟩
      · rw [if_neg hexp] at hx
        by_cases htok : tok = true
        · rw [if_pos htok] at hx
          rcases ih _ x hx with hx' | hx'
          · rcases List.mem_append.mp hx' with hx' | hx'
            · exact Or.inl hx'
            · have hxh : x = h := by simpa using hx'
              subst hxh
              refine Or.inr ⟨List.mem_cons_self x rest, fun e' hget => ?_⟩
              rw [he] at hget
              cases hget
              omega
          · exact Or.inr ⟨List.mem_cons_of_mem h hx'.1, hx'.2⟩
        · rw [if_neg htok] at hx
          rcases ih _ x hx with hx' | hx'
          · exact Or.inl hx'
          · exact Or.inr ⟨List.mem_cons_of_mem h hx'.1, hx'.2⟩

theorem availScanGo_empty_cache (now : Nat) :
    ∀ (hs : List String) (st : List String × List String),
      availScanGo [] now true hs st = (st.1, st.2 ++ hs) := by
  intro hs
  induction hs with
  | nil => intro st; simp [availScanGo]
  | cons h rest ih =>
    intro st
    simp only [availScanGo, cacheGet, if_pos]
    rw [ih]
    simp

theorem availScanGo_notok (cache : AvailCache) (now : Nat) :
    ∀ (hs : List String) (st : List String × List String),
      (availScanGo cache now false hs st).2 = st.2 := by
  intro hs
  induction hs with
  | nil => intro st; rfl
  | cons h rest ih =>
    intro st
    simp only [availScanGo]
    rcases cacheGet cache h with _ | e
    · dsimp only
      simp only [Bool.false_eq_true, if_false]
      exact ih st
    · dsimp only
      by_cases hexp : now < e.expires
      · rw [if_pos hexp]
        exact ih _
      · rw [if_neg hexp]
        simp only [Bool.false_eq_true, if_false]
        exact ih st

theorem chunksOfAux_join (n : Nat) (hn : 0 < n) :
    ∀ (fuel : Nat) (l : List String), l.length ≤ fuel →
      (chunksOfAux n fuel l).flatten = l := by
  intro fuel
  induction fuel with
  | zero =>
    intro l hl
    have : l = [] := List.eq_nil_of_length_eq_zero (Nat.le_zero.mp hl)
    subst this
    rfl
  | succ fuel ih =>
    intro l hl
    rcases l with _ | ⟨x, xs⟩
    · rfl
    · show ((x :: xs).take n :: chunksOfAux n fuel ((x :: xs).drop n)).flatten = x :: xs
      rw [List.flatten_cons]
      rw [ih ((x :: xs).drop n) (by
        rw [List.length_drop]
        simp only [List.length_cons] at hl ⊢
        omega)]
      exact List.take_append_drop n (x :: xs)

theorem chunksOf_join (n : Nat) (hn : 0 < n) (l : List String) :
    (chunksOf n l).flatten = l :=
  chunksOfAux_join n hn l.length l (Nat.le_refl _)

theorem update_cacheGet (ch : List String) (now : Nat) :
    ∀ (hashes : List String) (c : AvailCache) (x : String),
      cacheGet (updateAvailabilityCache hashes ch now c) x =
        if x ∈ hashes.map lowerStr then
          some ⟨ch.contains x, now + INSTANT_AVAILABILITY_TTL_MS⟩
        else cacheGet c x := by
  intro hashes
  induction hashes with
  | nil => intro c x; simp [updateAvailabilityCache]
  | cons h rest ih =>
    intro c x
    have hstep : updateAvailabilityCache (h :: rest) ch now c =
        updateAvailabilityCache rest ch now
          (cacheSet c (lowerStr h)
            ⟨ch.contains (lowerStr h), now + INSTANT_AVAILABILITY_TTL_MS⟩) := rfl
    rw [hstep, ih]
    by_cases hr : x ∈ rest.map lowerStr
    · rw [if_pos hr, if_pos (by simp [hr])]
    · rw [if_neg hr]
      by_cases hh : lowerStr h = x
      · have hget : cacheGet
            (cacheSet c (lowerStr h)
              ⟨ch.contains (lowerStr h), now + INSTANT_AVAILABILITY_TTL_MS⟩) x =
            some ⟨ch.contains (lowerStr h), now + INSTANT_AVAILABILITY_TTL_MS⟩ := by
          show (if lowerStr h == x then _ else _) = _
          rw [if_pos (by simp [hh])]
        rw [hget, hh]
        rw [if_pos (by rw [List.map_cons, hh]; exact List.mem_cons_self x _)]
      · have hget : cacheGet
            (cacheSet c (lowerStr h)
              ⟨ch.contains (lowerStr h), now + INSTANT_AVAILABILITY_TTL_MS⟩) x =
            cacheGet c x := by
          show (if lowerStr h == x then _ else _) = _
          rw [if_neg (by simp [hh])]
        rw [hget]
        rw [if_neg (by
          simp only [List.map_cons, List.mem_cons]
          rintro (h1 | h1)
          · exact hh h1.symm
          · exact hr h1)]

theorem fetchPerHash_cons (net : String → Option AvailPayload) (now : Nat)
    (h : String) (rest : List String) (st : AvailState) :
    fetchPerHash net now (h :: rest) st =
      fetchPerHash net now rest
        { result := addAll st.result (perHashCachedOf net h)
          cache := updateAvailabilityCache [h] (perHashCachedOf net h) now st.cache
          log := st.log ++ [singleEndpoint h] } := rfl

theorem fetchPerHash_log (net : String → Option AvailPayload) (now : Nat) :
    ∀ (chunk : List String) (st : AvailState),
      (fetchPerHash net now chunk st).log = st.log ++ chunk.map singleEndpoint := by
  intro chunk
  induction chunk with
  | nil => intro st; simp [fetchPerHash]
  | cons h rest ih =>
    intro st
    rw [fetchPerHash_cons, ih]
    simp

theorem update_freshEntry (hs ch : List String) (now : Nat) (c : AvailCache)
    (x : String) (h : freshEntry now c x ∨ x ∈ hs.map lowerStr) :
    freshEntry now (updateAvailabilityCache hs ch now c) x := by
  unfold freshEntry
  rw [update_cacheGet]
  by_cases hx : x ∈ hs.map lowerStr
  · rw [if_pos hx]
    exact ⟨_, rfl, rfl⟩
  · rw [if_neg hx]
    rcases h with h | h
    · exact h
    · exact absurd h hx

theorem fetchPerHash_fresh (net : String → Option AvailPayload) (now : Nat) :
    ∀ (chunk : List String) (st : AvailState) (x : String),
      (freshEntry now st.cache x ∨ x ∈ chunk.map lowerStr) →
      freshEntry now (fetchPerHash net now chunk st).cache x := by
  intro chunk
  induction chunk with
  | nil =>
    intro st x hx
    rcases hx with hx | hx
    · exact hx
    · simp at hx
  | cons h rest ih =>
    intro st x hx
    rw [fetchPerHash_cons]
    apply ih
    rcases hx with hx | hx
    · exact Or.inl (update_freshEntry _ _ _ _ _ (Or.inl hx))
    · rw [List.map_cons, List.mem_cons] at hx
      rcases hx with hx | hx
      · exact Or.inl (update_freshEntry _ _ _ _ _ (Or.inr (by
          rw [hx]; exact List.mem_singleton.mpr rfl)))
      · exact Or.inr hx

theorem commaPhase_log (net : String → Option AvailPayload) (now : Nat)
    (st : AvailState) (chunk : List String) :
    (commaPhase net now st chunk).log =
      st.log ++
        (if availOk net (commaEndpoint chunk) then
          [slashEndpoint chunk, commaEndpoint chunk]
         else slashEndpoint chunk :: commaEndpoint chunk :: chunk.map singleEndpoint) := by
  rcases hs2 : net (commaEndpoint chunk) with _ | q
  · simp only [commaPhase, availOk, hs2]
    simp [fetchPerHash_log]
  · rcases hq : isPayloadEmpty q with _ | _
    · simp only [commaPhase, availOk, hs2, hq]
      simp
    · simp only [commaPhase, availOk, hs2, hq]
      simp [fetchPerHash_log]

theorem processChunk_log (net : String → Option AvailPayload) (now : Nat)
    (st : AvailState) (chunk : List String) :
    (processChunk net now st chunk).log = st.log ++ chunkCallPlan net chunk := by
  rcases hs1 : net (slashEndpoint chunk) with _ | p
  · simp only [processChunk, hs1]
    rw [commaPhase_log]
    rcases hs2 : net (commaEndpoint chunk) with _ | q
    · simp [chunkCallPlan, availOk, hs1, hs2]
    · rcases hq : isPayloadEmpty q with _ | _ <;>
        simp [chunkCallPlan, availOk, hs1, hs2, hq]
  · rcases hp : isPayloadEmpty p with _ | _
    · simp only [processChunk, hs1, hp]
      simp [chunkCallPlan, availOk, hs1, hp]
    · simp only [processChunk, hs1]
      rw [if_pos hp, commaPhase_log]
      rcases hs2 : net (commaEndpoint chunk) with _ | q
      · simp [chunkCallPlan, availOk, hs1, hp, hs2]
      · rcases hq : isPayloadEmpty q with _ | _ <;>
          simp [chunkCallPlan, availOk, hs1, hp, hs2, hq]

theorem commaPhase_fresh (net : String → Option AvailPayload) (now : Nat)
    (st : AvailState) (chunk : List String) (x : String)
    (hx : freshEntry now st.cache x ∨ x ∈ chunk.map lowerStr) :
    freshEntry now (commaPhase net now st chunk).cache x := by
  have hper : ∀ st' : AvailState, st'.cache = st.cache →
      freshEntry now (fetchPerHash net now chunk st').cache x := by
    intro st' hc
    exact fetchPerHash_fresh net now chunk st' x (by rw [hc]; exact hx)
  rcases hs2 : net (commaEndpoint chunk) with _ | q
  · simp only [commaPhase, hs2]
    exact hper _ rfl
  · rcases hq : isPayloadEmpty q with _ | _
    · simp only [commaPhase, hs2, hq]
      simp only [Bool.false_eq_true, if_false]
      exact update_freshEntry _ _ _ _ _ hx
    · simp only [commaPhase, hs2, hq, if_pos]
      exact hper _ rfl

theorem processChunk_fresh (net : String → Option AvailPayload) (now : Nat)
    (st : AvailState) (chunk : List String) (x : String)
    (hx : freshEntry now st.cache x ∨ x ∈ chunk.map lowerStr) :
    freshEntry now (processChunk net now st chunk).cache x := by
  rcases hs1 : net (slashEndpoint chunk) with _ | p
  · simp only [processChunk, hs1]
    exact commaPhase_fresh net now st chunk x hx
  · rcases hp : isPayloadEmpty p with _ | _
    · simp only [processChunk, hs1, hp]
      simp only [Bool.false_eq_true, if_false]
      exact update_freshEntry _ _ _ _ _ hx
    · simp only [processChunk, hs1, hp, if_pos]
      exact commaPhase_fresh net now st chunk x hx

theorem foldl_processChunk_log (net : String → Option AvailPayload) (now : Nat) :
    ∀ (chunks : List (List String)) (st : AvailState),
      (chunks.foldl (processChunk net now) st).log =
        st.log ++ (chunks.map (chunkCallPlan net)).flatten := by
  intro chunks
  induction chunks with
  | nil => intro st; simp
  | cons c cs ih =>
    intro st
    rw [List.foldl_cons, ih, processChunk_log]
    simp

theorem foldl_processChunk_fresh (net : String → Option AvailPayload) (now : Nat) :
    ∀ (chunks : List (List String)) (st : AvailState) (x : String),
      (freshEntry now st.cache x ∨ ∃ c ∈ chunks, x ∈ c.map lowerStr) →
      freshEntry now ((chunks.foldl (processChunk net now) st)).cache x := by
  intro chunks
  induction chunks with
  | nil =>
    intro st x hx
    rcases hx with hx | ⟨c, hc, _⟩
    · exact hx
    · exact absurd hc (List.not_mem_nil c)
  | cons c cs ih =>
    intro st x hx
    rw [List.foldl_cons]
    apply ih
    rcases hx with hx | ⟨c', hc', hx⟩
    · exact Or.inl (processChunk_fresh net now st c x (Or.inl hx))
    · rcases List.mem_cons.mp hc' with hc' | hc'
      · subst hc'
        exact Or.inl (processChunk_fresh net now st c' x (Or.inr hx))
      · exact Or.inr ⟨c', hc', hx⟩

/-- When every normalized requested hash has a live cache entry, the lookup
is answered entirely from the cache: flags from the entries, cache unchanged,
no request issued. -/
theorem fetchCached_all_live (net : String → Option AvailPayload)
    (cache : AvailCache) (now : Nat) (hashes : List String) (token : Option String)
    (hlive : ∀ h ∈ normalizeHashes hashes,
      ∃ e, cacheGet cache h = some e ∧ now < e.expires) :
    fetchCachedInfoHashes net cache now hashes token =
      ⟨(availScan cache now (truthy token) (normalizeHashes hashes)).1, cache, []⟩ := by
  unfold fetchCachedInfoHashes
  by_cases hh : hashes.isEmpty = true
  · rw [if_pos hh]
    have he : hashes = [] := by simpa using hh
    subst he
    rfl
  · rw [if_neg hh]
    have hf : (availScan cache now (truthy token) (normalizeHashes hashes)).2 = [] :=
      availScanGo_live_fetch _ _ _ _ _ hlive
    rw [if_pos (by rw [hf]; simp)]

/-- **C4.** The request log of any availability lookup is exactly the
concatenation, over the chunks of the fetch queue, of the claimed strategy
sequence: the slash-joined call alone when it yields content, else slash then
comma, else slash, comma, then one call per hash — so the comma retry always
precedes any single-hash call of its chunk. -/
theorem claim_C4_strategy_order (net : String → Option AvailPayload)
    (cache : AvailCache) (now : Nat) (hashes : List String) (token : Option String) :
    (fetchCachedInfoHashes net cache now hashes token).log =
      ((chunksOf 50 (availScan cache now (truthy token) (normalizeHashes hashes)).2).map
        (chunkCallPlan net)).flatten := by
  unfold fetchCachedInfoHashes
  by_cases hh : hashes.isEmpty = true
  · rw [if_pos hh]
    have he : hashes = [] := by simpa using hh
    subst he
    rfl
  · rw [if_neg hh]
    by_cases ht : truthy token = true
    · by_cases hf : (availScan cache now (truthy token) (normalizeHashes hashes)).2 = []
      · rw [if_pos (by rw [hf]; simp)]
        rw [hf]
        rfl
      · rw [if_neg (by
          rw [ht] at hf ⊢
          simp only [Bool.not_true, Bool.false_or]
          simpa using hf)]
        rw [foldl_processChunk_log]
        rfl
    · have ht2 : truthy token = false := by simpa using ht
      rw [ht2]
      rw [if_pos (by simp)]
      have hf : (availScan cache now false (normalizeHashes hashes)).2 = [] :=
        availScanGo_notok _ _ _ _
      rw [hf]
      rfl

/-- **C3.** Live cache entries are authoritative: if every requested hash has
a live entry, the lookup issues no request, leaves the cache untouched and
answers exactly from the entries' flags; and a repeat of any query within the
TTL window after a first resolution (from a cold cache, with a token) issues
zero further requests. -/
theorem claim_C3_cache_idempotence (net net2 : String → Option AvailPayload)
    (cache : AvailCache) (now now2 : Nat) (hashes : List String)
    (token token2 : Option String)
    (hlive : ∀ h ∈ normalizeHashes hashes,
      ∃ e, cacheGet cache h = some e ∧ now < e.expires)
    (htok : truthy token = true)
    (hnow2 : now2 < now + INSTANT_AVAILABILITY_TTL_MS) :
    ((fetchCachedInfoHashes net cache now hashes token).log = [] ∧
     (fetchCachedInfoHashes net cache now hashes token).cache = cache ∧
     (∀ x, x ∈ (fetchCachedInfoHashes net cache now hashes token).result ↔
        x ∈ normalizeHashes hashes ∧
          ∃ e, cacheGet cache x = some e ∧ e.cached = true ∧ now < e.expires)) ∧
    (fetchCachedInfoHashes net2
        (fetchCachedInfoHashes net [] now hashes token).cache now2 hashes token2).log
      = [] := by
  constructor
  · rw [fetchCached_all_live net cache now hashes token hlive]
    refine ⟨rfl, rfl, fun x => ?_⟩
    have hm := availScanGo_live_res cache now (truthy token)
      (normalizeHashes hashes) ([], []) hlive x
    show x ∈ (availScan cache now (truthy token) (normalizeHashes hashes)).1 ↔ _
    unfold availScan
    rw [hm]
    simp
  · have hlive2 : ∀ h ∈ normalizeHashes hashes,
        ∃ e, cacheGet (fetchCachedInfoHashes net [] now hashes token).cache h =
          some e ∧ now2 < e.expires := by
      by_cases hh : hashes.isEmpty = true
      · have he : hashes = [] := by simpa using hh
        subst he
        intro h hm
        simp [normalizeHashes] at hm
      · have hfetch1 : (availScan [] now (truthy token) (normalizeHashes hashes)).2 =
            normalizeHashes hashes := by
          rw [htok]
          unfold availScan
          rw [availScanGo_empty_cache]
          simp
        intro h hm
        have hmf : h ∈ (availScan [] now (truthy token) (normalizeHashes hashes)).2 := by
          rw [hfetch1]; exact hm
        have hne : ¬(availScan [] now (truthy token) (normalizeHashes hashes)).2 = [] :=
          List.ne_nil_of_mem hmf
        have hcache1 : (fetchCachedInfoHashes net [] now hashes token).cache =
            ((chunksOf 50 (availScan [] now (truthy token) (normalizeHashes hashes)).2).foldl
              (processChunk net now)
              ⟨(availScan [] now (truthy token) (normalizeHashes hashes)).1, [], []⟩).cache := by
          unfold fetchCachedInfoHashes
          rw [if_neg hh]
          rw [if_neg (by
            rw [htok] at hne ⊢
            simp only [Bool.not_true, Bool.false_or]
            simpa using hne)]
        have hchunk : ∃ c ∈ chunksOf 50
            (availScan [] now (truthy token) (normalizeHashes hashes)).2,
            h ∈ c.map lowerStr := by
          obtain ⟨c, hc, hhc⟩ := List.mem_flatten.mp (by
            rw [chunksOf_join 50 (by omega)]
            exact hmf)
          refine ⟨c, hc, ?_⟩
          rw [← mem_normalizeHashes_lower hashes h hm]
          exact List.mem_map_of_mem lowerStr hhc
        have hfr := foldl_processChunk_fresh net now
          (chunksOf 50 (availScan [] now (truthy token) (normalizeHashes hashes)).2)
          ⟨(availScan [] now (truthy token) (normalizeHashes hashes)).1, [], []⟩ h
          (Or.inr hchunk)
        unfold freshEntry at hfr
        obtain ⟨e, he, hexp⟩ := hfr
        refine ⟨e, ?_, ?_⟩
        · rw [hcache1]; exact he
        · omega
    rw [fetchCached_all_live net2 _ now2 hashes token2 hlive2]

/-- Closed instance of C3: one hash with a live `cached = true` entry is
answered without any request; a cold-cache first query followed by a repeat
two milliseconds later issues no request the second time. -/
theorem claim_C3_witness :
    (∀ h ∈ normalizeHashes ["ABC"],
      ∃ e, cacheGet [("abc", ⟨true, 10⟩)] h = some e ∧ 5 < e.expires) ∧
    truthy (some "tok") = true ∧
    7 < 5 + INSTANT_AVAILABILITY_TTL_MS ∧
    (((fetchCachedInfoHashes (fun _ => none) [("abc", ⟨true, 10⟩)] 5 ["ABC"]
        (some "tok")).log = [] ∧
      (fetchCachedInfoHashes (fun _ => none) [("abc", ⟨true, 10⟩)] 5 ["ABC"]
        (some "tok")).cache = [("abc", ⟨true, 10⟩)] ∧
      (∀ x, x ∈ (fetchCachedInfoHashes (fun _ => none) [("abc", ⟨true, 10⟩)] 5 ["ABC"]
          (some "tok")).result ↔
        x ∈ normalizeHashes ["ABC"] ∧
          ∃ e, cacheGet [("abc", ⟨true, 10⟩)] x = some e ∧ e.cached = true ∧
            5 < e.expires)) ∧
     (fetchCachedInfoHashes (fun _ => none)
        (fetchCachedInfoHashes (fun _ => none) [] 5 ["ABC"] (some "tok")).cache
        7 ["ABC"] (some "tok")).log = []) := by
  have hlive : ∀ h ∈ normalizeHashes ["ABC"],
      ∃ e, cacheGet [("abc", ⟨true, 10⟩)] h = some e ∧ 5 < e.expires := by
    intro h hm
    rw [show normalizeHashes ["ABC"] = ["abc"] from by decide] at hm
    rw [List.mem_singleton] at hm
    subst hm
    exact ⟨⟨true, 10⟩, by decide, by decide⟩
  exact ⟨hlive, by decide, by decide,
    claim_C3_cache_idempotence (fun _ => none) (fun _ => none) [("abc", ⟨true, 10⟩)]
      5 7 ["ABC"] (some "tok") (some "tok") hlive (by decide) (by decide)⟩

end Brazuca

